import Mathlib

/-!
Verification of the WP-Sitemap-architect site-structure reconciliation engine
(`src/unnamed/part_006`, the crawler service) and the tree projection layer
(`src/utils/treeUtils.ts`), against the repository specification.

The TypeScript source is shallowly embedded: network calls become oracle
functions passed as parameters (page number to fetched page, id to rescued
item, transport method to response), JavaScript's stable `Array.prototype.sort`
becomes `List.insertionSort` (a stable sort), and the platform's `DOMParser` /
`URL` facilities are modelled by small executable functions noted below.
-/

namespace WPSA

/-! ## Data model, from `src/types.ts` -/

/-- `ContentType` enum from `src/types.ts`. -/
inductive ContentType where
  | page
  | post
  | custom
  | ghost
deriving DecidableEq, Repr

/-- `PageStatus` union from `src/types.ts`. -/
inductive PageStatus where
  | neutral
  | move
  | active
  | archived
  | redirect
  | new
  | remove
  | update
  | merge
  | hideInNavigation
deriving DecidableEq, Repr

/-- `SitePage` from `src/types.ts`.  Optional TypeScript fields are `Option`s;
`menuOrder` is used as `menuOrder || 0` everywhere in the source, so it is
modelled as a total `Int`. -/
structure SitePage where
  id : String
  title : String
  type : ContentType
  parentId : Option String
  url : String
  summary : String
  thumbnailUrl : String
  menuOrder : Int
  status : Option PageStatus := none
  notes : Option String := none
  ownerId : Option String := none
  relevance : Option Nat := none
  movedFromParentId : Option String := none
  mergeTargetId : Option String := none
deriving DecidableEq, Repr

/-- `CrawlerConfig` from `src/types.ts`. -/
structure CrawlerConfig where
  url : String
  includePages : Bool
  includePosts : Bool
  includeCustom : Bool
  username : Option String := none
  appPassword : Option String := none
deriving DecidableEq, Repr

/-- A raw WordPress REST item as consumed by the crawler: the fields of the
upstream JSON records that `part_006` actually reads.  `parent` is the numeric
WordPress parent id (`0` is WordPress's root sentinel); `title`, `excerpt` and
`content` stand for the `.rendered` strings; `featuredMedia` is the embedded
`wp:featuredmedia` source url when present. -/
structure RawItem where
  id : Nat
  title : String
  parent : Nat
  link : String
  excerpt : String
  content : String
  featuredMedia : Option String
  menu_order : Int
deriving DecidableEq, Repr

/-! ## Helpers from `src/unnamed/part_006` -/

/-- Character-list rendering of `String.startsWith` (kept executable down to
the kernel for concrete runs). -/
def strStartsWith (s pat : String) : Bool := pat.data.isPrefixOf s.data

/-- Drop the first `n` characters of a string. -/
def strDropChars (n : Nat) (s : String) : String := String.mk (s.data.drop n)

/-- Take the first `n` characters of a string. -/
def strTakeChars (n : Nat) (s : String) : String := String.mk (s.data.take n)

/-- Longest starting run of characters satisfying `p`. -/
def strTakeWhile (p : Char → Bool) (s : String) : String :=
  String.mk (s.data.takeWhile p)

/-- ASCII lower-casing of one character. -/
def charToLower (c : Char) : Char :=
  if 'A' ≤ c && c ≤ 'Z' then Char.ofNat (c.toNat + 32) else c

/-- ASCII rendering of `String.toLowerCase`. -/
def strToLower (s : String) : String := String.mk (s.data.map charToLower)

/-- Whether `pat` occurs as a contiguous run inside the character list. -/
def listContainsSub : List Char → List Char → Bool
  | [], pat => pat.isEmpty
  | c :: rest, pat => pat.isPrefixOf (c :: rest) || listContainsSub rest pat

/-- Whether `pat` occurs inside `s`. -/
def strContainsSub (s pat : String) : Bool := listContainsSub s.data pat.data

/-- Character-list rendering of `String.endsWith`. -/
def strEndsWith (s pat : String) : Bool := pat.data.reverse.isPrefixOf s.data.reverse

/-- Drop the last character of a string. -/
def strDropLast (s : String) : String := String.mk s.data.dropLast

/-- Character-level worker for `stripHtml`: drops every `<`...`>` tag span and
keeps the remaining text, modelling `DOMParser(...).body.textContent`. -/
def stripHtmlAux : List Char → Bool → List Char
  | [], _ => []
  | c :: cs, true => if c = '>' then stripHtmlAux cs false else stripHtmlAux cs true
  | c :: cs, false => if c = '<' then stripHtmlAux cs true else c :: stripHtmlAux cs false

/-- `stripHtml` from `part_006` lines 4-8: empty input maps to the empty
string, otherwise the HTML tags are stripped (the `DOMParser` text extraction
is modelled by dropping tag spans). -/
def stripHtml (html : String) : String :=
  if html = "" then "" else String.mk (stripHtmlAux html.data false)

/-- `getFeaturedImage` from `part_006` lines 11-21: the embedded featured-media
url when present, else the deterministic picsum placeholder keyed by item id. -/
def getFeaturedImage (item : RawItem) : String :=
  match item.featuredMedia with
  | some u => u
  | none => "https://picsum.photos/300/200?random=" ++ toString item.id

/-- `resolveParentId` from `part_006` lines 24-29.  The JS function maps the
falsy values `0`/`null`/`undefined`/`false` and the string `"0"` to `null` and
stringifies everything else; the upstream numeric parent field is modelled as a
`Nat`, so all those sentinel cases collapse to `0`. -/
def resolveParentId (rawParent : Nat) : Option String :=
  if rawParent = 0 then none else some (toString rawParent)

/-- Host extraction, modelling `new URL(url).hostname`: accepts only
`http://` / `https://` urls (the `URL` constructor throws otherwise, which
`isSameDomain` turns into "keep"), and takes the authority up to the first
`/`, `?`, `#` or `:`.  A url with an empty host is rejected like the `URL`
constructor does. -/
def parseHost (url : String) : Option String :=
  let rest : Option String :=
    if strStartsWith url "https://" then some (strDropChars 8 url)
    else if strStartsWith url "http://" then some (strDropChars 7 url)
    else none
  match rest with
  | none => none
  | some r =>
    let h := strTakeWhile (fun c => c != '/' && c != '?' && c != '#' && c != ':') r
    if h = "" then none else some h

/-- `hostname.replace(/^www\./, '')`: strip one leading `www.`. -/
def stripWww (host : String) : String :=
  if strStartsWith host "www." then strDropChars 4 host else host

/-- `isSameDomain` from `part_006` lines 32-43: empty inputs and unparseable
urls are kept (`true`), otherwise the two hosts are compared after stripping a
leading `www.` from both sides. -/
def isSameDomain (itemUrl : String) (baseUrl : String) : Bool :=
  if itemUrl = "" || baseUrl = "" then true
  else
    match parseHost itemUrl, parseHost baseUrl with
    | some itemHost, some baseHost => stripWww itemHost = stripWww baseHost
    | _, _ => true

/-! ## Transport layer (`fetchWithFallback`, `part_006` lines 57-114)

Each transport attempt (direct fetch, corsproxy.io, allorigins) either yields a
parsed JSON value or fails (non-ok status, network error, or a body that is
not JSON-shaped all land in the same failure path of the source).  The network
is an oracle `attempt : TransportMethod → Option α`.  The function also
returns the list of methods it attempted, in order; on exhaustion the source
throws an error naming the attempted methods, modelled as `Except.error` of
that list. -/

/-- The three transports of `fetchWithFallback`, in their fixed order. -/
inductive TransportMethod where
  | direct
  | proxyA
  | proxyB
deriving DecidableEq, Repr

/-- `fetchWithFallback` from `part_006` lines 57-114, instrumented with the
list of attempted transports.  Proxy B is only tried without auth credentials:
with auth the source throws directly after Direct and Proxy A fail. -/
def fetchWithFallback {α : Type} (hasAuth : Bool)
    (attempt : TransportMethod → Option α) :
    Except (List TransportMethod) α × List TransportMethod :=
  match attempt .direct with
  | some v => (.ok v, [.direct])
  | none =>
    match attempt .proxyA with
    | some v => (.ok v, [.direct, .proxyA])
    | none =>
      if hasAuth then
        (.error [.direct, .proxyA], [.direct, .proxyA])
      else
        match attempt .proxyB with
        | some v => (.ok v, [.direct, .proxyA, .proxyB])
        | none => (.error [.direct, .proxyA, .proxyB], [.direct, .proxyA, .proxyB])

/-- Whether `config.username && config.appPassword` is truthy (`part_006`
line 59); the empty string is falsy in JS. -/
def hasAuthOf (config : CrawlerConfig) : Bool :=
  match config.username, config.appPassword with
  | some u, some p => u ≠ "" && p ≠ ""
  | _, _ => false

/-! ## Paginated fetcher (`fetchAllItems`, `part_006` lines 117-152)

One call of the upstream collection endpoint for a given page number either
yields the page's item list or fails; this is the oracle
`fetch : Nat → Except ε (List α)`.  The `while (hasMore && page <= 30)` loop
is rendered with the remaining-pages count `31 - page` as structural fuel; the
function also returns the list of page numbers it requested, in order. -/

/-- Loop body of `fetchAllItems`.  `fuel` is the number of page requests the
`page <= MAX_PAGES` guard still allows (`31 - page`). -/
def fetchAllItemsAux {ε α : Type} (fetch : Nat → Except ε (List α)) :
    Nat → Nat → List α → List Nat → Except ε (List α) × List Nat
  | 0, _, acc, trace => (.ok acc, trace)
  | fuel + 1, page, acc, trace =>
    let trace1 := trace ++ [page]
    match fetch page with
    | .error e => if page = 1 then (.error e, trace1) else (.ok acc, trace1)
    | .ok data =>
      if data.length > 0 then
        let acc1 := acc ++ data
        if data.length < 50 then (.ok acc1, trace1)
        else fetchAllItemsAux fetch fuel (page + 1) acc1 trace1
      else (.ok acc, trace1)

/-- `fetchAllItems` from `part_006` lines 117-152 (`MAX_PAGES = 30`,
`PER_PAGE = 50`), instrumented with the requested page numbers. -/
def fetchAllItems {ε α : Type} (fetch : Nat → Except ε (List α)) :
    Except ε (List α) × List Nat :=
  fetchAllItemsAux fetch 30 1 [] []

/-! ## Parent rescue (`rescueItem` and step 2.5 of `analyzeSiteStructure`) -/

/-- `rescueItem` from `part_006` lines 155-177.  The single-item pages-endpoint
fetch (through `fetchWithFallback`) either yields a raw record or fails; this
is the oracle `fetchOne`.  A fetch failure, or a response whose `id` is falsy,
yields `none` (the silent-failure path). -/
def rescueItem (fetchOne : String → Option RawItem) (id : String) :
    Option SitePage :=
  match fetchOne id with
  | none => none
  | some p =>
    if p.id = 0 then none
    else
      some
        { id := toString p.id
          title := if p.title = "" then "Rescued Parent " ++ id else p.title
          type := ContentType.page
          parentId := resolveParentId p.parent
          url := p.link
          summary :=
            (let s := stripHtml p.excerpt
             if s = "" then "Nachgeladenes Elternelement" else s)
          thumbnailUrl := getFeaturedImage p
          menuOrder := p.menu_order }

/-- The JS `Set` insertion order: first occurrences, input order. -/
def dedupFirst (l : List String) : List String :=
  l.foldl (fun acc x => if acc.contains x then acc else acc ++ [x]) []

/-- The `missingParentIds` set of one rescue round (`part_006` lines 276-283):
referenced-but-absent parent ids, in first-reference order. -/
def missingParentIds (items : List SitePage) : List String :=
  dedupFirst
    (items.filterMap fun i =>
      match i.parentId with
      | none => none
      | some pid => if items.any (fun j => j.id = pid) then none else some pid)

/-- One iteration of the rescue `while` body (`part_006` lines 273-302):
fetch every missing parent, keep the rescues that succeeded and pass the
domain filter, merge them, and report whether anything new was merged. -/
def rescueRound (cleanUrl : String) (rescue : String → Option SitePage)
    (items : List SitePage) : List SitePage × Bool :=
  let missing := missingParentIds items
  if missing.isEmpty then (items, false)
  else
    let rescued := missing.filterMap rescue
    let validRescued := rescued.filter fun i => isSameDomain i.url cleanUrl
    if validRescued.isEmpty then (items, false)
    else (items ++ validRescued, true)

/-- The rescue `while (hasNewRescuedItems && rescueIterations < 2)` loop
(`part_006` lines 269-303).  `fuel` is the number of iterations the
`rescueIterations < 2` guard still allows (`2 - rescueIterations`);
`iterations` counts the rounds performed, and is returned with the result. -/
def rescueLoop (cleanUrl : String) (rescue : String → Option SitePage) :
    Nat → List SitePage → Nat → Bool → List SitePage × Nat
  | 0, items, iterations, _ => (items, iterations)
  | fuel + 1, items, iterations, hasNew =>
    if hasNew then
      let step := rescueRound cleanUrl rescue items
      rescueLoop cleanUrl rescue fuel step.1 (iterations + 1) step.2
    else (items, iterations)

/-- The full rescue phase of one reconciliation run: at most 2 rounds, the
first always attempted. -/
def rescuePhase (cleanUrl : String) (rescue : String → Option SitePage)
    (items : List SitePage) : List SitePage × Nat :=
  rescueLoop cleanUrl rescue 2 items 0 true

/-! ## Prune and flatten (`part_006` lines 180-201 and 307-343) -/

/-- Stable ascending sort by `(a.menuOrder || 0) - (b.menuOrder || 0)`,
modelling the (stable) JS `Array.prototype.sort` call on siblings. -/
def sortByMenuOrder (l : List SitePage) : List SitePage :=
  List.insertionSort (fun a b => a.menuOrder ≤ b.menuOrder) l

/-- Sibling-list worker of `buildAndFlattenTree`: walks the sorted children,
skipping already-visited ids, emitting each child followed by its recursively
flattened subtree (`go`), threading the shared `visited` set through. -/
def buildAndFlattenTreeKids
    (go : Option String → List String → List SitePage × List String) :
    List SitePage → List String → List SitePage × List String
  | [], visited => ([], visited)
  | child :: rest, visited =>
    if visited.contains child.id then buildAndFlattenTreeKids go rest visited
    else
      let sub := go (some child.id) (child.id :: visited)
      let restRes := buildAndFlattenTreeKids go rest sub.2
      (child :: (sub.1 ++ restRes.1), restRes.2)

/-- `buildAndFlattenTree` recursion from `part_006` lines 180-201: the items
whose `parentId` equals the current parent, sorted by `menuOrder`, each
followed by its subtree, guarded by the shared `visited` set.  The source
recursion terminates because `visited` only grows; here the recursion depth is
bounded by the structural `fuel`, which the top-level wrapper instantiates
large enough that the bound is never hit. -/
def buildAndFlattenTreeGo (items : List SitePage) :
    Nat → Option String → List String → List SitePage × List String
  | 0, _, visited => ([], visited)
  | fuel + 1, parentId, visited =>
    buildAndFlattenTreeKids (buildAndFlattenTreeGo items fuel)
      (sortByMenuOrder (items.filter fun i => i.parentId == parentId)) visited

/-- `buildAndFlattenTree(items, null)` as called at `part_006` line 328.  The
descent depth is at most the number of distinct ids, so `items.length + 1`
levels of fuel are never exhausted. -/
def buildAndFlattenTree (items : List SitePage) : List SitePage :=
  (buildAndFlattenTreeGo items (items.length + 1) none []).1

/-- The prune step (`part_006` lines 311-323): keep roots and items whose
parent id is present in the working set; drop the rest. -/
def pruneDangling (items : List SitePage) : List SitePage :=
  items.filter fun item =>
    match item.parentId with
    | none => true
    | some pid => items.any fun j => j.id = pid

/-- Flatten plus the orphan safety net (`part_006` lines 325-343): items of
the pruned set that the traversal did not reach are forced to roots and
appended. -/
def finalizeItems (validItems : List SitePage) : List SitePage :=
  let sorted := buildAndFlattenTree validItems
  let reachableIds := sorted.map fun i => i.id
  let orphans :=
    (validItems.filter fun i => !(reachableIds.contains i.id)).map
      fun o => { o with parentId := none }
  sorted ++ orphans

/-! ## Fetch-and-map steps of `analyzeSiteStructure` (`part_006` lines 203-266) -/

/-- `config.url.replace(/\/$/, "")`: drop one trailing slash. -/
def stripTrailingSlash (s : String) : String :=
  if strEndsWith s "/" then strDropLast s else s

/-- The page mapper (`part_006` lines 217-226). -/
def mapPage (p : RawItem) : SitePage :=
  { id := toString p.id
    title := if p.title = "" then "Ohne Titel" else p.title
    type := ContentType.page
    parentId := resolveParentId p.parent
    url := p.link
    summary :=
      (let e := stripHtml p.excerpt
       if e = "" then strTakeChars 150 (stripHtml p.content) ++ "..." else e)
    thumbnailUrl := getFeaturedImage p
    menuOrder := p.menu_order }

/-- The post mapper (`part_006` lines 255-264): posts hang under the blog
container and get `menuOrder` 0. -/
def mapPost (p : RawItem) (blogParentId : String) : SitePage :=
  { id := toString p.id
    title := if p.title = "" then "Ohne Titel" else p.title
    type := ContentType.post
    parentId := some blogParentId
    url := p.link
    summary :=
      (let e := stripHtml p.excerpt
       if e = "" then "..." else e)
    thumbnailUrl := getFeaturedImage p
    menuOrder := 0 }

/-- The `/blog|news|aktuelles/i` regex test on a title (`part_006` line 238). -/
def titleMatchesBlog (t : String) : Bool :=
  let l := strToLower t
  strContainsSub l "blog" || strContainsSub l "news" || strContainsSub l "aktuelles"

/-- The synthesized virtual blog container (`part_006` lines 242-252). -/
def virtualBlogRoot (cleanUrl : String) : SitePage :=
  { id := "virtual-blog-root"
    title := "Blog / Beiträge"
    type := ContentType.custom
    parentId := none
    url := cleanUrl ++ "/blog"
    summary := "Automatisch erstellter Container"
    thumbnailUrl := "https://picsum.photos/300/200?grayscale"
    menuOrder := 9999 }

/-- Steps 1 and 2 of `analyzeSiteStructure` (`part_006` lines 209-266): fetch,
domain-filter and map pages (when enabled), then posts (when enabled),
synthesizing or reusing the blog container for posts.  A pagination failure
from either endpoint propagates. -/
def initialItems (cfg : CrawlerConfig)
    (pagesFetch postsFetch : Nat → Except String (List RawItem)) :
    Except String (List SitePage) :=
  let cleanUrl := stripTrailingSlash cfg.url
  let pagesStep : Except String (List SitePage) :=
    if cfg.includePages then
      match (fetchAllItems pagesFetch).1 with
      | .error e => .error e
      | .ok pagesData =>
        .ok ((pagesData.filter fun p => isSameDomain p.link cleanUrl).map mapPage)
    else .ok []
  match pagesStep with
  | .error e => .error e
  | .ok allItems =>
    if cfg.includePosts then
      match (fetchAllItems postsFetch).1 with
      | .error e => .error e
      | .ok postsData =>
        let filteredPosts := postsData.filter fun p => isSameDomain p.link cleanUrl
        if filteredPosts.isEmpty then .ok allItems
        else
          match allItems.find? fun p => titleMatchesBlog p.title with
          | some blogPage =>
            .ok (allItems ++ filteredPosts.map fun p => mapPost p blogPage.id)
          | none =>
            .ok ((allItems ++ [virtualBlogRoot cleanUrl]) ++
              filteredPosts.map fun p => mapPost p "virtual-blog-root")
    else .ok allItems

/-- The failure conditions `analyzeSiteStructure` can surface: a fatal fetch
failure, or the `NoContentFound` throw of `part_006` line 305. -/
inductive AnalyzeError where
  | fetchFailed (e : String)
  | noContentFound
deriving DecidableEq, Repr

/-- `analyzeSiteStructure` from `part_006` lines 203-350, as a function of the
three network oracles: the paginated pages and posts endpoints and the
single-item rescue endpoint.  Pipeline: fetch and map (`initialItems`), rescue
(at most two rounds), the `NoContentFound` emptiness check, prune, flatten,
orphan safety net. -/
def analyzeSiteStructure (cfg : CrawlerConfig)
    (pagesFetch postsFetch : Nat → Except String (List RawItem))
    (rescueFetch : String → Option RawItem) :
    Except AnalyzeError (List SitePage) :=
  match initialItems cfg pagesFetch postsFetch with
  | .error e => .error (.fetchFailed e)
  | .ok items0 =>
    if ((rescuePhase (stripTrailingSlash cfg.url) (rescueItem rescueFetch) items0).1).isEmpty
    then .error .noContentFound
    else
      .ok (finalizeItems (pruneDangling
        (rescuePhase (stripTrailingSlash cfg.url) (rescueItem rescueFetch) items0).1))

/-! ## Tree projection layer, from `src/utils/treeUtils.ts`

`TreeNode extends SitePage` with an optional child array and a transient
`isOpen` flag; an absent child array behaves like an empty one everywhere in
the source, so children are a plain list. -/

/-- `TreeNode` from `treeUtils.ts` lines 3-6. -/
inductive TreeNode where
  | mk (page : SitePage) (isOpen : Bool) (children : List TreeNode)

/-- The `SitePage` payload of a node. -/
def TreeNode.page : TreeNode → SitePage
  | .mk p _ _ => p

/-- The transient UI flag of a node. -/
def TreeNode.isOpen : TreeNode → Bool
  | .mk _ o _ => o

/-- The child list of a node. -/
def TreeNode.children : TreeNode → List TreeNode
  | .mk _ _ cs => cs

@[simp]
theorem TreeNode.page_mk (p : SitePage) (o : Bool) (cs : List TreeNode) :
    (TreeNode.mk p o cs).page = p := rfl

@[simp]
theorem TreeNode.isOpen_mk (p : SitePage) (o : Bool) (cs : List TreeNode) :
    (TreeNode.mk p o cs).isOpen = o := rfl

@[simp]
theorem TreeNode.children_mk (p : SitePage) (o : Bool) (cs : List TreeNode) :
    (TreeNode.mk p o cs).children = cs := rfl

/-- All node ids of a forest, in pre-order. -/
def treeIds : List TreeNode → List String
  | [] => []
  | n :: rest => n.page.id :: (treeIds n.children ++ treeIds rest)
termination_by ns => sizeOf ns
decreasing_by
  all_goals (cases n; simp [TreeNode.children]; try omega)

/-- The ids of one node's subtree (the node itself included), in pre-order. -/
def subtreeIds (n : TreeNode) : List String :=
  n.page.id :: treeIds n.children

/-- All `(page, isOpen)` payloads of a forest, in pre-order. -/
def treePayloads : List TreeNode → List (SitePage × Bool)
  | [] => []
  | n :: rest => (n.page, n.isOpen) :: (treePayloads n.children ++ treePayloads rest)
termination_by ns => sizeOf ns
decreasing_by
  all_goals (cases n; simp [TreeNode.children]; try omega)

/-- The shape of a forest: each node's child count, in pre-order.  Together
with `treePayloads` this determines the forest completely. -/
def treeShape : List TreeNode → List Nat
  | [] => []
  | n :: rest => n.children.length :: (treeShape n.children ++ treeShape rest)
termination_by ns => sizeOf ns
decreasing_by
  all_goals (cases n; simp [TreeNode.children]; try omega)

/-- First node with the given id, in the pre-order traversal order shared by
`removeNode` and `insertIntoParent` (node, then its children, then later
siblings). -/
def findNode (nodeId : String) : List TreeNode → Option TreeNode
  | [] => none
  | n :: rest =>
    if n.page.id = nodeId then some n
    else
      match findNode nodeId n.children with
      | some r => some r
      | none => findNode nodeId rest
termination_by ns => sizeOf ns
decreasing_by
  all_goals (cases n; simp [TreeNode.children]; try omega)

/-! ### `buildTreeFromPages` (`treeUtils.ts` lines 11-66) -/

/-- The defensive parent-id normalization of `buildTreeFromPages` line 27: a
string `"0"` parent is treated as root. -/
def safeParentId (p : SitePage) : Option String :=
  if p.parentId = some "0" then none else p.parentId

/-- The pages attached as children of the node with id `x` (lines 29-31):
those whose normalized parent id is truthy — present and, by JS string
truthiness, non-empty — and equal to `x`. -/
def childPages (pages : List SitePage) (x : String) : List SitePage :=
  pages.filter fun c =>
    match safeParentId c with
    | none => false
    | some s => !(s == "") && s == x

/-- The pages that become roots (lines 29-34): normalized parent falsy
(absent, or the empty string) or missing from the id map. -/
def rootPages (pages : List SitePage) : List SitePage :=
  pages.filter fun p =>
    match safeParentId p with
    | none => true
    | some pid => pid == "" || !(pages.any fun q => q.id = pid)

/-- Child subtrees of the node with id `x`.  The source first assigns children
in page order and then recursively sorts every child list by `menuOrder`
(`sortChildrenByMenuOrder`, lines 38-45); since those per-level stable sorts
are independent, sorting each child list at construction builds the same
forest.  The source recursion terminates because the map-based tree is finite
for acyclic input; here the descent is bounded by the structural `fuel`,
instantiated at `pages.length`, which an acyclic parent relation never
exhausts. -/
def buildChildren (pages : List SitePage) : Nat → String → List TreeNode
  | 0, _ => []
  | fuel + 1, x =>
    (sortByMenuOrder (childPages pages x)).map fun c =>
      TreeNode.mk c false (buildChildren pages fuel c.id)

/-- `getDescendantCount` (lines 48-51) summed over a node list: each node
contributes itself plus its own descendants. -/
def getDescendantCountList : List TreeNode → Nat
  | [] => 0
  | n :: rest => 1 + getDescendantCountList n.children + getDescendantCountList rest
termination_by ns => sizeOf ns
decreasing_by
  all_goals (cases n; simp [TreeNode.children]; try omega)

/-- `getDescendantCount` from `treeUtils.ts` lines 48-51. -/
def getDescendantCount (n : TreeNode) : Nat :=
  getDescendantCountList n.children

/-- The root-level re-sort (lines 59-63): stable, by total descendant count
descending. -/
def sortRootsByDescendantCount (roots : List TreeNode) : List TreeNode :=
  List.insertionSort (fun a b => getDescendantCount b ≤ getDescendantCount a) roots

/-- `buildTreeFromPages` from `treeUtils.ts` lines 11-66: nodes grouped under
their (normalized) parents, every level sorted by `menuOrder` (stably), and
the root level then re-sorted by descendant count descending. -/
def buildTreeFromPages (pages : List SitePage) : List TreeNode :=
  sortRootsByDescendantCount
    ((sortByMenuOrder (rootPages pages)).map fun p =>
      TreeNode.mk p false (buildChildren pages pages.length p.id))

/-! ### `updateNodeDataInTree` (`treeUtils.ts` lines 93-108) -/

/-- A `Partial<SitePage>`: for each `SitePage` field, either absent or a
value to write (writing `undefined` into an optional field is represented by
`some none`). -/
structure PagePatch where
  id : Option String := none
  title : Option String := none
  type : Option ContentType := none
  parentId : Option (Option String) := none
  url : Option String := none
  summary : Option String := none
  thumbnailUrl : Option String := none
  menuOrder : Option Int := none
  status : Option (Option PageStatus) := none
  notes : Option (Option String) := none
  ownerId : Option (Option String) := none
  relevance : Option (Option Nat) := none
  movedFromParentId : Option (Option String) := none
  mergeTargetId : Option (Option String) := none
deriving DecidableEq, Repr

/-- The spread `{ ...node, ...updates }`: fields present in the patch
override the node's. -/
def applyPatch (p : SitePage) (u : PagePatch) : SitePage :=
  { id := u.id.getD p.id
    title := u.title.getD p.title
    type := u.type.getD p.type
    parentId := u.parentId.getD p.parentId
    url := u.url.getD p.url
    summary := u.summary.getD p.summary
    thumbnailUrl := u.thumbnailUrl.getD p.thumbnailUrl
    menuOrder := u.menuOrder.getD p.menuOrder
    status := u.status.getD p.status
    notes := u.notes.getD p.notes
    ownerId := u.ownerId.getD p.ownerId
    relevance := u.relevance.getD p.relevance
    movedFromParentId := u.movedFromParentId.getD p.movedFromParentId
    mergeTargetId := u.mergeTargetId.getD p.mergeTargetId }

/-- `updateNodeDataInTree` from `treeUtils.ts` lines 93-108: map over the
forest; a node whose id matches gets the patch merged (children and `isOpen`
untouched, no further descent); otherwise a node with children is rebuilt
around its recursively patched children; leaves are returned as they are. -/
def updateNodeDataInTree : List TreeNode → String → PagePatch → List TreeNode
  | [], _, _ => []
  | n :: rest, nodeId, updates =>
    (if n.page.id = nodeId then TreeNode.mk (applyPatch n.page updates) n.isOpen n.children
     else if n.children.isEmpty then n
     else TreeNode.mk n.page n.isOpen (updateNodeDataInTree n.children nodeId updates)) ::
      updateNodeDataInTree rest nodeId updates
termination_by ns _ _ => sizeOf ns
decreasing_by
  all_goals (cases n; simp [TreeNode.children]; try omega)

/-! ### `flattenTree` (`treeUtils.ts` lines 113-134) -/

/-- `flattenTree` from `treeUtils.ts` lines 113-134: pre-order, recomputing
each page's `parentId` from its position and its `menuOrder` as its sibling
index (the `forEach` index, threaded here as the `index` parameter, `0` at
each call site). -/
def flattenTree : List TreeNode → Option String → Nat → List SitePage
  | [], _, _ => []
  | n :: rest, parentId, index =>
    { n.page with parentId := parentId, menuOrder := (index : Int) } ::
      (flattenTree n.children (some n.page.id) 0 ++ flattenTree rest parentId (index + 1))
termination_by ns _ _ => sizeOf ns
decreasing_by
  all_goals (cases n; simp [TreeNode.children]; try omega)

/-! ### `moveTreeNode` (`treeUtils.ts` lines 140-188) -/

/-- `Array.prototype.splice(index, 0, x)`: insert at `index`, clamped to the
end of the list. -/
def spliceInsert {α : Type} (index : Nat) (x : α) (l : List α) : List α :=
  l.take index ++ x :: l.drop index

/-- The `removeNode` closure of `moveTreeNode` (lines 147-159): find the first
node with the dragged id — checking each node, then its subtree, then its
later siblings — detach it, and return it with the remaining forest. -/
def removeNode (dragId : String) : List TreeNode → Option TreeNode × List TreeNode
  | [] => (none, [])
  | n :: rest =>
    if n.page.id = dragId then (some n, rest)
    else
      match removeNode dragId n.children with
      | (some d, cs) => (some d, TreeNode.mk n.page n.isOpen cs :: rest)
      | (none, _) =>
        let r := removeNode dragId rest
        (r.1, n :: r.2)
termination_by ns => sizeOf ns
decreasing_by
  all_goals (cases n; simp [TreeNode.children]; try omega)

/-- The `insertIntoParent` closure of `moveTreeNode` (lines 173-184): find the
first node with the target id in the same traversal order, splice the dragged
node into its children at `index`, and report success. -/
def insertIntoParent (parentId : String) (dragged : TreeNode) (index : Nat) :
    List TreeNode → Bool × List TreeNode
  | [] => (false, [])
  | n :: rest =>
    if n.page.id = parentId then
      (true, TreeNode.mk n.page n.isOpen (spliceInsert index dragged n.children) :: rest)
    else
      match insertIntoParent parentId dragged index n.children with
      | (true, cs) => (true, TreeNode.mk n.page n.isOpen cs :: rest)
      | (false, _) =>
        let r := insertIntoParent parentId dragged index rest
        (r.1, n :: r.2)
termination_by ns => sizeOf ns
decreasing_by
  all_goals (cases n; simp [TreeNode.children]; try omega)

/-- `moveTreeNode` from `treeUtils.ts` lines 140-188.  The source first makes
a JSON deep copy (value-identical for this data), then removes the first node
matching `dragIds[0]`, rewrites its `parentId`, and splices it under the
target parent (or at root level).  When nothing was removed the original
forest is returned; when the target parent is not found the dragged subtree is
silently dropped. -/
def moveTreeNode (data : List TreeNode) (dragIds : List String)
    (parentId : Option String) (index : Nat) : List TreeNode :=
  match dragIds with
  | [] => data
  | dragId :: _ =>
    match removeNode dragId data with
    | (none, _) => data
    | (some draggedNode0, newData) =>
      let draggedNode :=
        TreeNode.mk { draggedNode0.page with parentId := parentId }
          draggedNode0.isOpen draggedNode0.children
      match parentId with
      | none => spliceInsert index draggedNode newData
      | some pid => (insertIntoParent pid draggedNode index newData).2

/-! ## Claim C7: the domain filter -/

/-- C7: for a crawl targeting host `www.fme.de`, the domain filter excludes an
item whose link host is `en.fme.de` and includes items whose link hosts are
`fme.de` or `www.fme.de`; in general, on parseable urls `isSameDomain`
compares the two hosts after stripping a leading `www.` from both sides. -/
theorem isSameDomain_strips_www :
    (∀ itemUrl baseUrl itemHost baseHost : String,
      parseHost itemUrl = some itemHost → parseHost baseUrl = some baseHost →
      (isSameDomain itemUrl baseUrl = true ↔ stripWww itemHost = stripWww baseHost)) ∧
    isSameDomain "https://en.fme.de/page" "https://www.fme.de" = false ∧
    isSameDomain "https://fme.de/page" "https://www.fme.de" = true ∧
    isSameDomain "https://www.fme.de/page" "https://www.fme.de" = true := by
  refine ⟨?_, by decide, by decide, by decide⟩
  intro itemUrl baseUrl itemHost baseHost hi hb
  have h0 : parseHost "" = none := by decide
  have hine : itemUrl ≠ "" := by
    intro h; rw [h, h0] at hi; exact Option.noConfusion hi
  have hbne : baseUrl ≠ "" := by
    intro h; rw [h, h0] at hb; exact Option.noConfusion hb
  simp [isSameDomain, hine, hbne, hi, hb]

/-! ## Claim C6: transport fallback order and exhaustion -/

/-- C6: for every auth configuration and every behaviour of the transports,
`fetchWithFallback` attempts the transports in the fixed order direct request,
first CORS proxy, second CORS proxy (the attempted trace is an initial
segment of that order), skips the second proxy entirely when auth credentials
are present, and when all attempted transports fail it fails carrying the
list of attempted methods; a success comes from the last attempted method
after every earlier one failed. -/
theorem fetchWithFallback_transport_order {α : Type} (hasAuth : Bool)
    (attempt : TransportMethod → Option α) :
    (∃ k, (fetchWithFallback hasAuth attempt).2 =
      (if hasAuth then [TransportMethod.direct, TransportMethod.proxyA]
       else [TransportMethod.direct, TransportMethod.proxyA, TransportMethod.proxyB]).take k) ∧
    (∀ ms, (fetchWithFallback hasAuth attempt).1 = .error ms →
      ms = (if hasAuth then [TransportMethod.direct, TransportMethod.proxyA]
            else [TransportMethod.direct, TransportMethod.proxyA, TransportMethod.proxyB]) ∧
      ms = (fetchWithFallback hasAuth attempt).2 ∧
      ∀ m ∈ ms, attempt m = none) ∧
    (∀ v, (fetchWithFallback hasAuth attempt).1 = .ok v →
      ∃ m, (fetchWithFallback hasAuth attempt).2.getLast? = some m ∧
        attempt m = some v ∧
        ∀ m2 ∈ (fetchWithFallback hasAuth attempt).2.dropLast, attempt m2 = none) := by
  rcases hd : attempt .direct with _ | v <;>
    rcases hA : attempt .proxyA with _ | w <;>
    rcases hB : attempt .proxyB with _ | x <;>
    cases hasAuth <;>
    simp only [fetchWithFallback, hd, hA, hB, Bool.false_eq_true, if_false, if_true] <;>
    refine ⟨?_, ?_, ?_⟩ <;>
    first
      | exact ⟨1, rfl⟩
      | exact ⟨2, rfl⟩
      | exact ⟨3, rfl⟩
      | (rintro ms h; cases h; done)
      | (rintro ms h; injection h with h; subst h; refine ⟨rfl, rfl, ?_⟩;
         intro m hm; simp at hm;
         first
           | (rcases hm with rfl | rfl | rfl <;> assumption)
           | (rcases hm with rfl | rfl <;> assumption)
           | (rcases hm with rfl <;> assumption))
      | (rintro v2 h; injection h with h; subst h;
         first
           | exact ⟨.direct, rfl, hd, by intro m2 hm2; simp at hm2⟩
           | (refine ⟨.proxyA, rfl, hA, ?_⟩; intro m2 hm2; simp at hm2;
              rcases hm2 with rfl <;> assumption)
           | (refine ⟨.proxyB, rfl, hB, ?_⟩; intro m2 hm2; simp at hm2;
              rcases hm2 with rfl | rfl <;> assumption))

/-! ## Claim C5: pagination termination -/

/-- One pagination step: a full page (50 items) appends and continues with the
next page number. -/
theorem fetchAllItemsAux_step_full {ε α : Type} {fetch : Nat → Except ε (List α)}
    {page : Nat} {l : List α} (fuel : Nat) (acc : List α) (tr : List Nat)
    (h : fetch page = .ok l) (hlen : l.length = 50) :
    fetchAllItemsAux fetch (fuel + 1) page acc tr =
      fetchAllItemsAux fetch fuel (page + 1) (acc ++ l) (tr ++ [page]) := by
  simp [fetchAllItemsAux, h, hlen]

/-- One pagination step: a short nonempty page appends and ends pagination. -/
theorem fetchAllItemsAux_step_short {ε α : Type} {fetch : Nat → Except ε (List α)}
    {page : Nat} {l : List α} (fuel : Nat) (acc : List α) (tr : List Nat)
    (h : fetch page = .ok l) (hpos : 0 < l.length) (hshort : l.length < 50) :
    fetchAllItemsAux fetch (fuel + 1) page acc tr = (.ok (acc ++ l), tr ++ [page]) := by
  simp [fetchAllItemsAux, h, hpos, hshort]

/-- One pagination step: an error on the first page propagates. -/
theorem fetchAllItemsAux_step_err_first {ε α : Type} {fetch : Nat → Except ε (List α)}
    {e : ε} (fuel : Nat) (acc : List α) (tr : List Nat) (h : fetch 1 = .error e) :
    fetchAllItemsAux fetch (fuel + 1) 1 acc tr = (.error e, tr ++ [1]) := by
  simp [fetchAllItemsAux, h]

/-- One pagination step: an error on a later page ends pagination, keeping the
accumulated items. -/
theorem fetchAllItemsAux_step_err_later {ε α : Type} {fetch : Nat → Except ε (List α)}
    {page : Nat} {e : ε} (fuel : Nat) (acc : List α) (tr : List Nat)
    (h : fetch page = .error e) (hp : page ≠ 1) :
    fetchAllItemsAux fetch (fuel + 1) page acc tr = (.ok acc, tr ++ [page]) := by
  simp [fetchAllItemsAux, h, hp]

/-- The trace of requested pages grows by at most one per unit of remaining
fuel. -/
theorem fetchAllItemsAux_trace_le {ε α : Type} (fetch : Nat → Except ε (List α)) :
    ∀ (fuel page : Nat) (acc : List α) (tr : List Nat),
      (fetchAllItemsAux fetch fuel page acc tr).2.length ≤ tr.length + fuel := by
  intro fuel
  induction fuel with
  | zero => intro page acc tr; simp [fetchAllItemsAux]
  | succ fuel ih =>
    intro page acc tr
    simp only [fetchAllItemsAux]
    rcases hf : fetch page with e | data
    · by_cases hp : page = 1 <;> simp [hp] <;> omega
    · by_cases h1 : 0 < data.length
      · by_cases h2 : data.length < 50
        · simp [h1, h2] <;> omega
        · simp only [h1, if_true, h2, if_false, gt_iff_lt]
          have h3 := ih (page + 1) (acc ++ data) (tr ++ [page])
          simp at h3
          simp
          omega
      · simp [h1] <;> omega

/-- C5: an endpoint returning pages of exactly 50, 50, then 20 items yields
precisely those 120 items in fetch order using exactly the 3 page requests
`[1, 2, 3]`; a short page (fewer than 50 items) ends pagination, an error on a
page after the first ends pagination keeping the accumulated items, an error
on the very first page propagates, and no run ever requests more than 30
pages. -/
theorem fetchAllItems_pagination {ε α : Type} :
    (∀ (fetch : Nat → Except ε (List α)) (l1 l2 l3 : List α),
      fetch 1 = .ok l1 → fetch 2 = .ok l2 → fetch 3 = .ok l3 →
      l1.length = 50 → l2.length = 50 → l3.length = 20 →
      fetchAllItems fetch = (.ok (l1 ++ l2 ++ l3), [1, 2, 3])) ∧
    (∀ (fetch : Nat → Except ε (List α)) (e : ε),
      fetch 1 = .error e → fetchAllItems fetch = (.error e, [1])) ∧
    (∀ (fetch : Nat → Except ε (List α)) (l : List α) (e : ε),
      fetch 1 = .ok l → l.length = 50 → fetch 2 = .error e →
      fetchAllItems fetch = (.ok l, [1, 2])) ∧
    (∀ (fetch : Nat → Except ε (List α)) (l : List α),
      fetch 1 = .ok l → 0 < l.length → l.length < 50 →
      fetchAllItems fetch = (.ok l, [1])) ∧
    (∀ fetch : Nat → Except ε (List α), (fetchAllItems fetch).2.length ≤ 30) ∧
    fetchAllItems
        (fun p => (.ok (List.replicate (if p = 1 then 50 else if p = 2 then 50 else 20) 0) :
          Except Unit (List Nat))) =
      (.ok (List.replicate 120 0), [1, 2, 3]) := by
  refine ⟨?_, ?_, ?_, ?_, ?_, by rfl⟩
  · intro fetch l1 l2 l3 h1 h2 h3 hl1 hl2 hl3
    show fetchAllItemsAux fetch (29 + 1) 1 [] [] = _
    rw [fetchAllItemsAux_step_full 29 [] [] h1 hl1]
    show fetchAllItemsAux fetch (28 + 1) 2 l1 [1] = _
    rw [fetchAllItemsAux_step_full 28 l1 [1] h2 hl2]
    show fetchAllItemsAux fetch (27 + 1) 3 (l1 ++ l2) [1, 2] = _
    rw [fetchAllItemsAux_step_short 27 (l1 ++ l2) [1, 2] h3 (by omega) (by omega)]
    simp
  · intro fetch e h1
    show fetchAllItemsAux fetch (29 + 1) 1 [] [] = _
    rw [fetchAllItemsAux_step_err_first 29 [] [] h1]
    rfl
  · intro fetch l e h1 hl1 h2
    show fetchAllItemsAux fetch (29 + 1) 1 [] [] = _
    rw [fetchAllItemsAux_step_full 29 [] [] h1 hl1]
    show fetchAllItemsAux fetch (28 + 1) 2 l [1] = _
    rw [fetchAllItemsAux_step_err_later 28 l [1] h2 (by omega)]
    simp
  · intro fetch l h1 hpos hshort
    show fetchAllItemsAux fetch (29 + 1) 1 [] [] = _
    rw [fetchAllItemsAux_step_short 29 [] [] h1 hpos hshort]
    rfl
  · intro fetch
    have h := fetchAllItemsAux_trace_le fetch 30 1 [] []
    simpa [fetchAllItems] using h

/-! ## Claim C4: rescue is bounded to two rounds, then pruning -/

/-- Unfolding of the two-round rescue loop: the first round always runs; the
second runs exactly when the first merged at least one accepted item; there is
no third round. -/
theorem rescuePhase_eq (cleanUrl : String) (rescue : String → Option SitePage)
    (items : List SitePage) :
    rescuePhase cleanUrl rescue items =
      (if (rescueRound cleanUrl rescue items).2 then
        ((rescueRound cleanUrl rescue (rescueRound cleanUrl rescue items).1).1, 2)
       else ((rescueRound cleanUrl rescue items).1, 1)) := by
  show rescueLoop cleanUrl rescue (1 + 1) items 0 true = _
  rcases hr : rescueRound cleanUrl rescue items with ⟨items1, flag⟩
  simp only [rescueLoop, if_true, hr]

/-- C4: for every crawl configuration and upstream behaviour, one
reconciliation run performs at most 2 parent-rescue rounds; the round count is
2 exactly when the first round merged at least one new accepted item (so a
further round is attempted only after a productive one); and an item whose
parent id is still absent from the working set after the last round is removed
by the prune step rather than retried. -/
theorem rescue_two_rounds_then_prune (cleanUrl : String)
    (rescue : String → Option SitePage) (items : List SitePage) :
    (rescuePhase cleanUrl rescue items).2 ≤ 2 ∧
    (rescuePhase cleanUrl rescue items).2 =
      (if (rescueRound cleanUrl rescue items).2 then 2 else 1) ∧
    (rescuePhase cleanUrl rescue items).1 =
      (if (rescueRound cleanUrl rescue items).2 then
        (rescueRound cleanUrl rescue (rescueRound cleanUrl rescue items).1).1
       else (rescueRound cleanUrl rescue items).1) ∧
    (∀ p ∈ (rescuePhase cleanUrl rescue items).1,
      p.parentId ≠ none →
      (∀ q ∈ (rescuePhase cleanUrl rescue items).1, p.parentId ≠ some q.id) →
      p ∉ pruneDangling (rescuePhase cleanUrl rescue items).1) := by
  have he := rescuePhase_eq cleanUrl rescue items
  refine ⟨?_, ?_, ?_, ?_⟩
  · rw [he]; by_cases h : (rescueRound cleanUrl rescue items).2 <;> simp [h]
  · rw [he]; by_cases h : (rescueRound cleanUrl rescue items).2 <;> simp [h]
  · rw [he]; by_cases h : (rescueRound cleanUrl rescue items).2 <;> simp [h]
  · intro p hp hnn hq
    intro hmem
    rw [pruneDangling, List.mem_filter] at hmem
    rcases hmem with ⟨_, hcond⟩
    rcases hpid : p.parentId with _ | pid
    · exact hnn hpid
    · rw [hpid] at hcond
      simp only [List.any_eq_true] at hcond
      rcases hcond with ⟨q, hqmem, hqid⟩
      simp only [decide_eq_true_eq] at hqid
      exact hq q hqmem (by rw [hpid, hqid])

/-! ## Claims C1 and C3: the shape of the reconciliation output -/

/-- A sequence of pages is parent-linked relative to a context `ctx`: each
element's parent is `ctx` itself, or the id of an element strictly earlier in
the sequence.  `buildAndFlattenTree` emits children only after their parents,
so its output is parent-linked relative to `none`. -/
def ParentLinked (ctx : Option String) (res : List SitePage) : Prop :=
  ∀ (i : Nat) (p : SitePage), res[i]? = some p →
    p.parentId = ctx ∨
      ∃ (j : Nat) (q : SitePage), j < i ∧ res[j]? = some q ∧ p.parentId = some q.id

theorem parentLinked_nil (ctx : Option String) : ParentLinked ctx [] := by
  intro i p hip
  simp at hip

/-- Assembling one child, its flattened subtree, and the later siblings keeps
the parent-linked invariant. -/
theorem parentLinked_cons_append {ctx : Option String} {c : SitePage}
    {sub rest : List SitePage} (hc : c.parentId = ctx)
    (hsub : ParentLinked (some c.id) sub) (hrest : ParentLinked ctx rest) :
    ParentLinked ctx (c :: (sub ++ rest)) := by
  intro i p hip
  cases i with
  | zero =>
    left
    simp only [List.getElem?_cons_zero, Option.some.injEq] at hip
    rw [← hip]
    exact hc
  | succ i =>
    have hip2 : (sub ++ rest)[i]? = some p := by simpa using hip
    by_cases hlt : i < sub.length
    · have hsubi : sub[i]? = some p := by
        rw [List.getElem?_append_left hlt] at hip2
        exact hip2
      rcases hsub i p hsubi with hpc | ⟨j, q, hj, hjq, hpq⟩
      · right
        exact ⟨0, c, Nat.succ_pos i, by simp, hpc⟩
      · right
        refine ⟨j + 1, q, by omega, ?_, hpq⟩
        have : (sub ++ rest)[j]? = some q := by
          rw [List.getElem?_append_left (lt_trans hj hlt)]
          exact hjq
        simpa using this
    · have hge : sub.length ≤ i := Nat.le_of_not_lt hlt
      have hresti : rest[i - sub.length]? = some p := by
        rw [List.getElem?_append_right hge] at hip2
        exact hip2
      rcases hrest (i - sub.length) p hresti with hpc | ⟨j, q, hj, hjq, hpq⟩
      · left
        exact hpc
      · right
        refine ⟨sub.length + j + 1, q, by omega, ?_, hpq⟩
        have h1 : (sub ++ rest)[sub.length + j]? = some q := by
          rw [List.getElem?_append_right (Nat.le_add_right sub.length j)]
          simpa using hjq
        simpa using h1

/-- Appending root items (parent `none`) keeps the invariant at context
`none`. -/
theorem parentLinked_append_roots {a b : List SitePage}
    (ha : ParentLinked none a) (hb : ∀ o ∈ b, o.parentId = none) :
    ParentLinked none (a ++ b) := by
  intro i p hip
  by_cases hlt : i < a.length
  · have hai : a[i]? = some p := by
      rw [List.getElem?_append_left hlt] at hip
      exact hip
    rcases ha i p hai with hpc | ⟨j, q, hj, hjq, hpq⟩
    · left; exact hpc
    · right
      refine ⟨j, q, hj, ?_, hpq⟩
      rw [List.getElem?_append_left (lt_trans hj hlt)]
      exact hjq
  · left
    have hge : a.length ≤ i := Nat.le_of_not_lt hlt
    rw [List.getElem?_append_right hge] at hip
    exact hb p (List.getElem?_mem hip)

/-- The sibling walker emits parent-linked sequences: every child in `cs` has
parent `ctx`, and the recursive flattener `go` is parent-linked for its own
context. -/
theorem bftKids_linked
    (go : Option String → List String → List SitePage × List String)
    (hgo : ∀ pid vis, ParentLinked pid (go pid vis).1) :
    ∀ (cs : List SitePage) (vis : List String) (ctx : Option String),
      (∀ c ∈ cs, c.parentId = ctx) →
      ParentLinked ctx (buildAndFlattenTreeKids go cs vis).1 := by
  intro cs
  induction cs with
  | nil => intro vis ctx _; simpa [buildAndFlattenTreeKids] using parentLinked_nil ctx
  | cons c rest ih =>
    intro vis ctx hmem
    cases hv : vis.contains c.id
    · simp only [buildAndFlattenTreeKids, hv, Bool.false_eq_true, if_false]
      exact parentLinked_cons_append (hmem c (List.mem_cons_self c rest))
        (hgo (some c.id) (c.id :: vis))
        (ih (go (some c.id) (c.id :: vis)).2 ctx
          (fun d hd => hmem d (List.mem_cons_of_mem c hd)))
    · simp only [buildAndFlattenTreeKids, hv, if_true]
      exact ih vis ctx (fun d hd => hmem d (List.mem_cons_of_mem c hd))

/-- The recursive flattener emits parent-linked sequences at every fuel. -/
theorem bftGo_linked (items : List SitePage) :
    ∀ (fuel : Nat) (pid : Option String) (vis : List String),
      ParentLinked pid (buildAndFlattenTreeGo items fuel pid vis).1 := by
  intro fuel
  induction fuel with
  | zero => intro pid vis; simpa [buildAndFlattenTreeGo] using parentLinked_nil pid
  | succ fuel ih =>
    intro pid vis
    simp only [buildAndFlattenTreeGo]
    refine bftKids_linked (buildAndFlattenTreeGo items fuel) ih _ vis pid ?_
    intro c hc
    have hc2 : c ∈ items.filter fun i => i.parentId == pid := by
      have hperm := List.perm_insertionSort
        (fun a b : SitePage => a.menuOrder ≤ b.menuOrder)
        (items.filter fun i => i.parentId == pid)
      exact hperm.mem_iff.mp hc
    have := List.of_mem_filter hc2
    simpa using this

/-- The finalize step (flatten plus orphan safety net) always emits a
parent-linked sequence. -/
theorem finalizeItems_linked (validItems : List SitePage) :
    ParentLinked none (finalizeItems validItems) := by
  refine parentLinked_append_roots (bftGo_linked validItems _ none []) ?_
  intro o ho
  simp only [List.mem_map] at ho
  rcases ho with ⟨o0, _, rfl⟩
  rfl

/-- Following `parentId` lookups (`find?` on the output, the first matching
page) from `p` reaches a root within `fuel` steps. -/
def followsToRoot (out : List SitePage) : Nat → SitePage → Bool
  | 0, p => p.parentId == none
  | fuel + 1, p =>
    match p.parentId with
    | none => true
    | some pid =>
      match out.find? fun q => q.id = pid with
      | none => false
      | some q => followsToRoot out fuel q

/-- `find?` finds a satisfying element at an index no later than any given
satisfying index. -/
theorem find?_early {α : Type} (pred : α → Bool) :
    ∀ (l : List α) (j : Nat) (x : α), l[j]? = some x → pred x = true →
      ∃ j0 q0, j0 ≤ j ∧ l[j0]? = some q0 ∧ l.find? pred = some q0 := by
  intro l
  induction l with
  | nil => intro j x hx _; simp at hx
  | cons a rest ih =>
    intro j x hx hpx
    by_cases hpa : pred a = true
    · exact ⟨0, a, Nat.zero_le j, by simp, by simp [List.find?, hpa]⟩
    · cases j with
      | zero =>
        simp only [List.getElem?_cons_zero, Option.some.injEq] at hx
        rw [hx] at hpa
        exact absurd hpx hpa
      | succ j =>
        have hx2 : rest[j]? = some x := by simpa using hx
        rcases ih j x hx2 hpx with ⟨j0, q0, hle, hj0, hfind⟩
        refine ⟨j0 + 1, q0, by omega, by simpa using hj0, ?_⟩
        simp [List.find?, hpa]
        exact hfind

/-- In a parent-linked sequence, following parent links from the element at
index `i` reaches a root within `i` steps (so within the sequence length). -/
theorem parentLinked_followsToRoot {out : List SitePage}
    (h : ParentLinked none out) :
    ∀ (i : Nat) (p : SitePage), out[i]? = some p →
      ∀ fuel, i ≤ fuel → followsToRoot out fuel p = true := by
  intro i
  induction i using Nat.strong_induction_on with
  | _ i ih =>
    intro p hip fuel hfuel
    rcases h i p hip with hnone | ⟨j, q, hj, hjq, hpq⟩
    · cases fuel <;> simp [followsToRoot, hnone]
    · have hi : 0 < i := by
        rcases Nat.eq_zero_or_pos i with rfl | hpos
        · omega
        · exact hpos
      rcases Nat.exists_eq_succ_of_ne_zero (Nat.pos_iff_ne_zero.mp (lt_of_lt_of_le hi hfuel)) with
        ⟨fuel2, rfl⟩
      have hqpred : (fun r : SitePage => decide (r.id = q.id)) q = true := by simp
      rcases find?_early (fun r : SitePage => decide (r.id = q.id)) out j q hjq hqpred with
        ⟨j0, q0, hle, hj0, hfind⟩
      have hq0 : q0.id = q.id := by
        have := List.find?_some hfind
        simpa using this
      simp only [followsToRoot, hpq, hfind]
      exact ih j0 (by omega) q0 hj0 fuel2 (by omega)

/-- Inversion of a successful reconciliation run: the output is the finalize
step applied to the pruned post-rescue working set. -/
theorem analyzeSiteStructure_ok_inv (cfg : CrawlerConfig)
    (pagesFetch postsFetch : Nat → Except String (List RawItem))
    (rescueFetch : String → Option RawItem) (out : List SitePage)
    (h : analyzeSiteStructure cfg pagesFetch postsFetch rescueFetch = .ok out) :
    ∃ validItems : List SitePage, out = finalizeItems validItems := by
  unfold analyzeSiteStructure at h
  split at h
  · exact Except.noConfusion h
  · split at h
    · exact Except.noConfusion h
    · injection h with h
      exact ⟨_, h.symm⟩

/-- C1: every successful reconciliation run returns a forest: each output page
has a `null` parent or a parent id borne by some page of the output, and
following parent links (first match by id) from any output page reaches a
root within `|output|` steps, so there is no cycle. -/
theorem analyzeSiteStructure_forest (cfg : CrawlerConfig)
    (pagesFetch postsFetch : Nat → Except String (List RawItem))
    (rescueFetch : String → Option RawItem) (out : List SitePage)
    (h : analyzeSiteStructure cfg pagesFetch postsFetch rescueFetch = .ok out) :
    (∀ p ∈ out, p.parentId = none ∨ ∃ q ∈ out, p.parentId = some q.id) ∧
    (∀ p ∈ out, followsToRoot out out.length p = true) := by
  rcases analyzeSiteStructure_ok_inv cfg pagesFetch postsFetch rescueFetch out h with ⟨v, rfl⟩
  have hl := finalizeItems_linked v
  constructor
  · intro p hp
    rcases List.getElem?_of_mem hp with ⟨i, hi⟩
    rcases hl i p hi with hnone | ⟨j, q, _, hjq, hpq⟩
    · left; exact hnone
    · right; exact ⟨q, List.getElem?_mem hjq, hpq⟩
  · intro p hp
    rcases List.getElem?_of_mem hp with ⟨i, hi⟩
    have hlen : i < (finalizeItems v).length := by
      by_contra hge
      rw [List.getElem?_eq_none (Nat.le_of_not_lt hge)] at hi
      cases hi
    exact parentLinked_followsToRoot hl i p hi _ (Nat.le_of_lt hlen)

/-- A rescue round never removes items. -/
theorem rescueRound_length_le (cleanUrl : String) (rescue : String → Option SitePage)
    (items : List SitePage) : items.length ≤ (rescueRound cleanUrl rescue items).1.length := by
  simp only [rescueRound]
  split
  · simp
  · split
    · simp
    · simp

/-- The rescue phase never removes items. -/
theorem rescuePhase_length_le (cleanUrl : String) (rescue : String → Option SitePage)
    (items : List SitePage) : items.length ≤ (rescuePhase cleanUrl rescue items).1.length := by
  rw [rescuePhase_eq]
  by_cases h : (rescueRound cleanUrl rescue items).2 <;> simp [h]
  · exact le_trans (rescueRound_length_le cleanUrl rescue items)
      (rescueRound_length_le cleanUrl rescue _)
  · exact rescueRound_length_le cleanUrl rescue items

/-- C3 (amended): the `NoContentFound` failure occurs exactly when the working
set is empty after fetch, map, filter and rescue — equivalently, when the
fetch-and-map steps produced no items at all (rescue only ever adds items).
The emptiness check precedes the prune step, so a successful run whose items
are all pruned returns an empty sequence. -/
theorem analyzeSiteStructure_noContentFound_iff (cfg : CrawlerConfig)
    (pagesFetch postsFetch : Nat → Except String (List RawItem))
    (rescueFetch : String → Option RawItem) :
    analyzeSiteStructure cfg pagesFetch postsFetch rescueFetch =
        .error .noContentFound ↔
      initialItems cfg pagesFetch postsFetch = .ok [] := by
  unfold analyzeSiteStructure
  rcases hinit : initialItems cfg pagesFetch postsFetch with e | items0
  · simp
  · simp only [Except.ok.injEq]
    by_cases hemp :
        ((rescuePhase (stripTrailingSlash cfg.url) (rescueItem rescueFetch) items0).1).isEmpty =
          true
    · rw [if_pos hemp]
      have hlen := rescuePhase_length_le (stripTrailingSlash cfg.url)
        (rescueItem rescueFetch) items0
      rw [List.isEmpty_iff] at hemp
      rw [hemp] at hlen
      simp at hlen
      simp [hlen]
    · rw [if_neg hemp]
      constructor
      · intro h
        exact Except.noConfusion h
      · intro h
        subst h
        exact absurd (by rfl) hemp

/-- Concrete crawl for the C3 counterexample: one fetched page whose parent
`99` can never be rescued. -/
def cfgOrphanOnly : CrawlerConfig :=
  { url := "https://b.de", includePages := true, includePosts := false, includeCustom := false }

/-- The pages endpoint of the counterexample crawl: a single page, id 5,
parent 99, on the crawl's own domain. -/
def pagesFetchOrphanOnly : Nat → Except String (List RawItem) := fun p =>
  if p = 1 then
    .ok [{ id := 5, title := "Waise", parent := 99, link := "https://b.de/w",
           excerpt := "", content := "", featuredMedia := none, menu_order := 0 }]
  else .ok []

/-- C3 counterexample: this run succeeds (no `NoContentFound`) yet returns the
empty sequence — the emptiness check runs before pruning, and pruning drops
the only item because its parent 99 is missing and unrescuable.  This refutes
the claim that the failure fires exactly when the final set after all steps
(pruning included) is empty, and that a successful run is never empty. -/
theorem analyzeSiteStructure_empty_success :
    analyzeSiteStructure cfgOrphanOnly pagesFetchOrphanOnly
      (fun _ => .ok []) (fun _ => none) = .ok [] := rfl

/-- Concrete crawl for the C1 witness: a root page and one child. -/
def cfgTwoPages : CrawlerConfig :=
  { url := "https://a.de", includePages := true, includePosts := false, includeCustom := false }

/-- The pages endpoint of the witness crawl: a root (id 1) and a child (id 2,
parent 1). -/
def pagesFetchTwoPages : Nat → Except String (List RawItem) := fun p =>
  if p = 1 then
    .ok [{ id := 1, title := "Home", parent := 0, link := "https://a.de/",
           excerpt := "", content := "", featuredMedia := none, menu_order := 0 },
         { id := 2, title := "Sub", parent := 1, link := "https://a.de/sub",
           excerpt := "", content := "", featuredMedia := none, menu_order := 0 }]
  else .ok []

/-- The output of the witness crawl. -/
def outTwoPages : List SitePage :=
  (analyzeSiteStructure cfgTwoPages pagesFetchTwoPages
    (fun _ => .ok []) (fun _ => none)).toOption.getD []

theorem analyzeSiteStructure_forest_witness :
    (∀ p ∈ outTwoPages, p.parentId = none ∨ ∃ q ∈ outTwoPages, p.parentId = some q.id) ∧
    (∀ p ∈ outTwoPages, followsToRoot outTwoPages outTwoPages.length p = true) :=
  analyzeSiteStructure_forest cfgTwoPages pagesFetchTwoPages
    (fun _ => .ok []) (fun _ => none) outTwoPages rfl

/-! ## Claim C9: the in-place patch preserves shape and every other node -/

/-- The pre-order payload ids coincide with the pre-order node ids. -/
theorem treePayloads_map_fst_id :
    ∀ l : List TreeNode, (treePayloads l).map (fun pr => pr.1.id) = treeIds l
  | [] => by simp [treePayloads, treeIds]
  | n :: rest => by
    rw [treePayloads, treeIds, List.map_cons, List.map_append,
      treePayloads_map_fst_id n.children, treePayloads_map_fst_id rest]
termination_by l => sizeOf l
decreasing_by
  all_goals (cases n; simp [TreeNode.children]; try omega)

/-- A patch whose id is absent from a forest leaves its payloads unchanged
under the patch map. -/
theorem payloads_map_id_of_not_mem {l : List TreeNode} {nodeId : String}
    (h : nodeId ∉ treeIds l) (u : PagePatch) :
    (treePayloads l).map
        (fun pr => if pr.1.id = nodeId then (applyPatch pr.1 u, pr.2) else pr) =
      treePayloads l := by
  have hcong :
      (treePayloads l).map
          (fun pr => if pr.1.id = nodeId then (applyPatch pr.1 u, pr.2) else pr) =
        (treePayloads l).map id := by
    apply List.map_congr_left
    intro pr hpr
    have hid : pr.1.id ∈ treeIds l := by
      rw [← treePayloads_map_fst_id l]
      exact List.mem_map_of_mem _ hpr
    rw [if_neg]
    · rfl
    · intro he
      rw [he] at hid
      exact h hid
  rw [hcong, List.map_id]

/-- The in-place patch does not change the length of a sibling list. -/
theorem updateNodeDataInTree_length :
    ∀ (ns : List TreeNode) (nodeId : String) (u : PagePatch),
      (updateNodeDataInTree ns nodeId u).length = ns.length
  | [], _, _ => by rw [updateNodeDataInTree]
  | n :: rest, nodeId, u => by
    rw [updateNodeDataInTree, List.length_cons, List.length_cons,
      updateNodeDataInTree_length rest nodeId u]

/-- C9: `updateNodeDataInTree` preserves the tree shape exactly, merges the
partial field update into every node bearing the given id, and leaves every
other node's payload (page fields and `isOpen` state) untouched — stated for
forests with distinct node ids, where "the identified node" is well defined. -/
theorem updateNodeDataInTree_frame :
    ∀ (nodes : List TreeNode) (nodeId : String) (u : PagePatch),
      (treeIds nodes).Nodup →
      treeShape (updateNodeDataInTree nodes nodeId u) = treeShape nodes ∧
      treePayloads (updateNodeDataInTree nodes nodeId u) =
        (treePayloads nodes).map
          (fun pr => if pr.1.id = nodeId then (applyPatch pr.1 u, pr.2) else pr)
  | [], nodeId, u => by
    intro _
    simp [updateNodeDataInTree, treeShape, treePayloads]
  | n :: rest, nodeId, u => by
    intro hnd
    rw [treeIds] at hnd
    rw [List.nodup_cons, List.nodup_append] at hnd
    rcases hnd with ⟨hhead, hch, hrest, hdisj⟩
    have hheadch : n.page.id ∉ treeIds n.children := fun hc =>
      hhead (List.mem_append_left _ hc)
    rcases updateNodeDataInTree_frame rest nodeId u hrest with ⟨ihShapeR, ihPayR⟩
    by_cases hid : n.page.id = nodeId
    · rw [updateNodeDataInTree, if_pos hid]
      constructor
      · rw [treeShape, treeShape, TreeNode.children, ihShapeR]
      · rw [treePayloads, treePayloads, TreeNode.page, TreeNode.isOpen, TreeNode.children,
          List.map_cons, List.map_append, if_pos hid, ihPayR,
          payloads_map_id_of_not_mem (fun hc => hheadch (hid ▸ hc)) u]
    · rcases updateNodeDataInTree_frame n.children nodeId u hch with ⟨ihShapeC, ihPayC⟩
      by_cases hemp : n.children.isEmpty
      · rw [updateNodeDataInTree, if_neg hid, if_pos hemp]
        rw [List.isEmpty_iff] at hemp
        constructor
        · rw [treeShape, treeShape, ihShapeR]
        · rw [treePayloads, treePayloads, List.map_cons, List.map_append, if_neg hid, ihPayR,
            hemp]
          simp [treePayloads]
      · rw [updateNodeDataInTree, if_neg hid, if_neg hemp]
        constructor
        · rw [treeShape, treeShape, TreeNode.children, ihShapeR, ihShapeC]
          rw [updateNodeDataInTree_length n.children nodeId u]
        · rw [treePayloads, treePayloads, TreeNode.page, TreeNode.isOpen, TreeNode.children,
            List.map_cons, List.map_append, if_neg hid, ihPayR, ihPayC]
termination_by nodes _ _ => sizeOf nodes
decreasing_by
  all_goals (cases n; simp [TreeNode.children]; try omega)

/-! ## Claims C8 and C10: moving a subtree -/

/-- Rebuilding a node from its projections gives the node back. -/
theorem TreeNode.eta (t : TreeNode) : TreeNode.mk t.page t.isOpen t.children = t := by
  cases t
  rfl

/-- Pre-order ids distribute over list append. -/
theorem treeIds_append : ∀ a b : List TreeNode, treeIds (a ++ b) = treeIds a ++ treeIds b
  | [], b => by rw [treeIds, List.nil_append, List.nil_append]
  | n :: rest, b => by
    rw [List.cons_append, treeIds, treeIds, treeIds_append rest b]
    simp
termination_by a _ => sizeOf a
decreasing_by
  all_goals (cases n; simp [TreeNode.children]; try omega)

/-- A found node bears the id it was looked up by. -/
theorem findNode_id : ∀ (pid : String) (ns : List TreeNode) (P : TreeNode),
    findNode pid ns = some P → P.page.id = pid
  | pid, [], P => by intro h; rw [findNode] at h; cases h
  | pid, n :: rest, P => by
    intro h
    rw [findNode] at h
    by_cases hid : n.page.id = pid
    · rw [if_pos hid] at h
      injection h with h
      rw [← h]
      exact hid
    · rw [if_neg hid] at h
      rcases hch : findNode pid n.children with _ | r
      · rw [hch] at h
        exact findNode_id pid rest P h
      · rw [hch] at h
        injection h with h
        rw [← h]
        exact findNode_id pid n.children r hch
termination_by _ ns _ => sizeOf ns
decreasing_by
  all_goals (cases n; simp [TreeNode.children]; try omega)

/-- `findNode` misses exactly the ids absent from the forest. -/
theorem findNode_eq_none_iff : ∀ (pid : String) (ns : List TreeNode),
    findNode pid ns = none ↔ pid ∉ treeIds ns
  | pid, [] => by simp [findNode, treeIds]
  | pid, n :: rest => by
    rw [findNode, treeIds]
    by_cases hid : n.page.id = pid
    · rw [if_pos hid]
      simp [hid]
    · rw [if_neg hid]
      rcases hch : findNode pid n.children with _ | r
      · rw [findNode_eq_none_iff pid rest]
        have hch2 := (findNode_eq_none_iff pid n.children).mp hch
        simp [hch2, Ne.symm hid]
      · constructor
        · intro h; cases h
        · intro h
          exfalso
          apply h
          have : pid ∈ treeIds n.children := by
            by_contra hc
            rw [← findNode_eq_none_iff pid n.children] at hc
            rw [hc] at hch
            cases hch
          simp [this]
termination_by _ ns => sizeOf ns
decreasing_by
  all_goals (cases n; simp [TreeNode.children]; try omega)

/-- `removeNode` finds exactly the node `findNode` finds (same traversal
order). -/
theorem removeNode_fst : ∀ (dragId : String) (ns : List TreeNode),
    (removeNode dragId ns).1 = findNode dragId ns
  | dragId, [] => by rw [removeNode, findNode]
  | dragId, n :: rest => by
    rw [removeNode, findNode]
    by_cases hid : n.page.id = dragId
    · rw [if_pos hid, if_pos hid]
    · rw [if_neg hid, if_neg hid]
      rcases hch : removeNode dragId n.children with ⟨o, cs⟩
      have hch2 : findNode dragId n.children = o := by
        rw [← removeNode_fst dragId n.children, hch]
      rcases o with _ | d
      · rw [hch2]
        exact removeNode_fst dragId rest
      · rw [hch2]
termination_by _ ns => sizeOf ns
decreasing_by
  all_goals (cases n; simp [TreeNode.children]; try omega)

/-- When nothing is found, `removeNode` returns the forest unchanged. -/
theorem removeNode_none : ∀ (dragId : String) (ns : List TreeNode),
    findNode dragId ns = none → removeNode dragId ns = (none, ns)
  | dragId, [], _ => by rw [removeNode]
  | dragId, n :: rest, h => by
    rw [findNode] at h
    by_cases hid : n.page.id = dragId
    · rw [if_pos hid] at h; cases h
    · rw [if_neg hid] at h
      rcases hch : findNode dragId n.children with _ | r
      · rw [hch] at h
        rw [removeNode, if_neg hid, removeNode_none dragId n.children hch,
          removeNode_none dragId rest h]
      · rw [hch] at h; cases h
termination_by _ ns _ => sizeOf ns
decreasing_by
  all_goals (cases n; simp [TreeNode.children]; try omega)

/-- Removal cuts exactly the removed node's contiguous pre-order block out of
the id sequence. -/
theorem removeNode_decomp : ∀ (dragId : String) (ns : List TreeNode) (d : TreeNode)
    (ns2 : List TreeNode), removeNode dragId ns = (some d, ns2) →
    ∃ A B, treeIds ns = A ++ (subtreeIds d ++ B) ∧ treeIds ns2 = A ++ B
  | dragId, [], d, ns2 => by intro h; rw [removeNode] at h; cases h
  | dragId, n :: rest, d, ns2 => by
    intro h
    rw [removeNode] at h
    by_cases hid : n.page.id = dragId
    · rw [if_pos hid] at h
      injection h with h1 h2
      have hd : n = d := by injection h1
      subst hd
      refine ⟨[], treeIds rest, ?_, ?_⟩
      · rw [treeIds, List.nil_append, subtreeIds]
        simp
      · rw [← h2, List.nil_append]
    · rw [if_neg hid] at h
      rcases hch : removeNode dragId n.children with ⟨o, cs⟩
      rcases o with _ | d2
      · rw [hch] at h
        rcases hrest : removeNode dragId rest with ⟨o2, rest2⟩
        rw [hrest] at h
        simp only at h
        injection h with h1 h2
        rcases o2 with _ | d3
        · cases h1
        · have hd : d3 = d := by injection h1
          subst hd
          rcases removeNode_decomp dragId rest d3 rest2 hrest with ⟨A, B, hA, hB⟩
          refine ⟨n.page.id :: (treeIds n.children ++ A), B, ?_, ?_⟩
          · rw [treeIds, hA]
            simp
          · rw [← h2, treeIds, hB]
            simp
      · rw [hch] at h
        injection h with h1 h2
        have hd : d2 = d := by injection h1
        subst hd
        rcases removeNode_decomp dragId n.children d2 cs hch with ⟨A, B, hA, hB⟩
        refine ⟨n.page.id :: A, B ++ treeIds rest, ?_, ?_⟩
        · rw [treeIds, hA]
          simp
        · rw [← h2, treeIds, TreeNode.children, TreeNode.page, hB]
          simp
termination_by _ ns _ _ => sizeOf ns
decreasing_by
  all_goals (cases n; simp [TreeNode.children]; try omega)

/-- When the target parent id is absent, `insertIntoParent` reports failure
and rebuilds the forest unchanged. -/
theorem insertIntoParent_not_found (pid : String) (dragged : TreeNode) (idx : Nat) :
    ∀ ns : List TreeNode, pid ∉ treeIds ns →
      insertIntoParent pid dragged idx ns = (false, ns)
  | [], _ => by rw [insertIntoParent]
  | n :: rest, h => by
    rw [treeIds] at h
    have hid : ¬n.page.id = pid := fun he => h (by simp [he])
    have hch : pid ∉ treeIds n.children := fun hc => h (by simp [hc])
    have hrest : pid ∉ treeIds rest := fun hc => h (by simp [hc])
    rw [insertIntoParent, if_neg hid, insertIntoParent_not_found pid dragged idx n.children hch,
      insertIntoParent_not_found pid dragged idx rest hrest]
termination_by ns _ => sizeOf ns
decreasing_by
  all_goals (cases n; simp [TreeNode.children]; try omega)

/-- Successful insertion: the target node (found by the shared traversal
order) gets the dragged node spliced into its children; the insertion is
reported. -/
theorem insertIntoParent_found (pid : String) (dragged : TreeNode) (idx : Nat) :
    ∀ (ns : List TreeNode) (P : TreeNode), findNode pid ns = some P →
      (insertIntoParent pid dragged idx ns).1 = true ∧
      findNode pid (insertIntoParent pid dragged idx ns).2 =
        some (TreeNode.mk P.page P.isOpen (spliceInsert idx dragged P.children))
  | [], P => by intro h; rw [findNode] at h; cases h
  | n :: rest, P => by
    intro h
    rw [findNode] at h
    by_cases hid : n.page.id = pid
    · rw [if_pos hid] at h
      injection h with h
      subst h
      rw [insertIntoParent, if_pos hid]
      refine ⟨rfl, ?_⟩
      rw [findNode]
      simp [hid]
    · rw [if_neg hid] at h
      rcases hch : findNode pid n.children with _ | r
      · rw [hch] at h
        have hnotch : pid ∉ treeIds n.children := (findNode_eq_none_iff pid n.children).mp hch
        rcases insertIntoParent_found pid dragged idx rest P h with ⟨h1, h2⟩
        rcases hins : insertIntoParent pid dragged idx rest with ⟨b, rest2⟩
        rw [hins] at h1 h2
        simp only at h1 h2
        subst h1
        rw [insertIntoParent, if_neg hid,
          insertIntoParent_not_found pid dragged idx n.children hnotch, hins]
        refine ⟨rfl, ?_⟩
        rw [findNode, if_neg hid, hch]
        exact h2
      · rw [hch] at h
        injection h with h
        subst h
        rcases insertIntoParent_found pid dragged idx n.children r hch with ⟨h1, h2⟩
        rcases hins : insertIntoParent pid dragged idx n.children with ⟨b, cs2⟩
        rw [hins] at h1 h2
        simp only at h1 h2
        subst h1
        rw [insertIntoParent, if_neg hid, hins]
        refine ⟨rfl, ?_⟩
        rw [findNode]
        simp only [TreeNode.page_mk, TreeNode.children_mk]
        rw [if_neg hid, h2]
termination_by ns _ => sizeOf ns
decreasing_by
  all_goals (cases n; simp [TreeNode.children]; try omega)

/-- Shuffling the middle block to the front is a permutation. -/
theorem perm_front_swap {α : Type} (x y z : List α) :
    (x ++ (y ++ z)).Perm (y ++ (x ++ z)) := by
  have h1 : x ++ (y ++ z) = (x ++ y) ++ z := by rw [List.append_assoc]
  have h2 : y ++ (x ++ z) = (y ++ x) ++ z := by rw [List.append_assoc]
  rw [h1, h2]
  exact (List.perm_append_comm).append_right z

/-- The ids of a splice: the dragged node's subtree ids joined to the old
child ids, up to order. -/
theorem treeIds_spliceInsert (idx : Nat) (dragged : TreeNode) (cs : List TreeNode) :
    (treeIds (spliceInsert idx dragged cs)).Perm (subtreeIds dragged ++ treeIds cs) := by
  rw [spliceInsert, treeIds_append, treeIds]
  have h1 : treeIds (cs.take idx) ++
        (dragged.page.id :: (treeIds dragged.children ++ treeIds (cs.drop idx))) =
      treeIds (cs.take idx) ++ (subtreeIds dragged ++ treeIds (cs.drop idx)) := by
    rw [subtreeIds]
    simp
  rw [h1]
  have h2 := perm_front_swap (treeIds (cs.take idx)) (subtreeIds dragged)
    (treeIds (cs.drop idx))
  have h3 : subtreeIds dragged ++ (treeIds (cs.take idx) ++ treeIds (cs.drop idx)) =
      subtreeIds dragged ++ treeIds cs := by
    rw [← treeIds_append, List.take_append_drop]
  rw [h3] at h2
  exact h2

/-- Successful insertion adds exactly the dragged subtree's ids. -/
theorem insertIntoParent_ids (pid : String) (dragged : TreeNode) (idx : Nat) :
    ∀ (ns : List TreeNode) (P : TreeNode), findNode pid ns = some P →
      (treeIds (insertIntoParent pid dragged idx ns).2).Perm
        (subtreeIds dragged ++ treeIds ns)
  | [], P => by intro h; rw [findNode] at h; cases h
  | n :: rest, P => by
    intro h
    rw [findNode] at h
    rw [treeIds]
    by_cases hid : n.page.id = pid
    · rw [insertIntoParent, if_pos hid]
      simp only [treeIds, TreeNode.page_mk, TreeNode.children_mk]
      have h1 : (treeIds (spliceInsert idx dragged n.children) ++ treeIds rest).Perm
          ((subtreeIds dragged ++ treeIds n.children) ++ treeIds rest) :=
        (treeIds_spliceInsert idx dragged n.children).append_right (treeIds rest)
      have h2 := h1.cons n.page.id
      have h3 : (subtreeIds dragged ++ treeIds n.children) ++ treeIds rest =
          subtreeIds dragged ++ (treeIds n.children ++ treeIds rest) := by
        rw [List.append_assoc]
      rw [h3] at h2
      exact h2.trans List.perm_middle.symm
    · rw [if_neg hid] at h
      rw [insertIntoParent, if_neg hid]
      rcases hch : findNode pid n.children with _ | r
      · rw [hch] at h
        have hnotch : pid ∉ treeIds n.children := (findNode_eq_none_iff pid n.children).mp hch
        rw [insertIntoParent_not_found pid dragged idx n.children hnotch]
        have hperm := insertIntoParent_ids pid dragged idx rest P h
        simp only [treeIds]
        have h1 := (hperm.append_left (treeIds n.children)).cons n.page.id
        have h2 := (perm_front_swap (treeIds n.children) (subtreeIds dragged)
          (treeIds rest)).cons n.page.id
        exact (h1.trans h2).trans List.perm_middle.symm
      · rw [hch] at h
        injection h with h
        have hperm := insertIntoParent_ids pid dragged idx n.children r hch
        rcases hins : insertIntoParent pid dragged idx n.children with ⟨b, cs2⟩
        rw [hins] at hperm
        simp only at hperm
        have hb : b = true := by
          have hf := (insertIntoParent_found pid dragged idx n.children r hch).1
          rw [hins] at hf
          exact hf
        subst hb
        simp only [treeIds, TreeNode.page_mk, TreeNode.children_mk]
        have h1 := (hperm.append_right (treeIds rest)).cons n.page.id
        have h2 : (subtreeIds dragged ++ treeIds n.children) ++ treeIds rest =
            subtreeIds dragged ++ (treeIds n.children ++ treeIds rest) := by
          rw [List.append_assoc]
        rw [h2] at h1
        exact h1.trans List.perm_middle.symm
termination_by ns _ => sizeOf ns
decreasing_by
  all_goals (cases n; simp [TreeNode.children]; try omega)

/-- Removing one subtree leaves every node outside it findable with the same
payload and `isOpen` state (its children may have shrunk if the removed node
sat below it). -/
theorem removeNode_keeps_other : ∀ (dragId pid : String) (ns : List TreeNode)
    (d : TreeNode) (ns2 : List TreeNode) (P : TreeNode),
    removeNode dragId ns = (some d, ns2) →
    pid ∉ subtreeIds d →
    findNode pid ns = some P →
    ∃ cs2, findNode pid ns2 = some (TreeNode.mk P.page P.isOpen cs2)
  | dragId, pid, [], d, ns2, P => by intro h; rw [removeNode] at h; cases h
  | dragId, pid, n :: rest, d, ns2, P => by
    intro hrem hout hfind
    rw [removeNode] at hrem
    rw [findNode] at hfind
    by_cases hid : n.page.id = dragId
    · rw [if_pos hid] at hrem
      injection hrem with h1 h2
      have hd : n = d := by injection h1
      subst hd
      subst h2
      have hpidn : ¬n.page.id = pid := by
        intro he
        exact hout (by rw [subtreeIds, ← he]; simp)
      have hpidch : pid ∉ treeIds n.children := by
        intro hc
        exact hout (by rw [subtreeIds]; simp [hc])
      rw [if_neg hpidn, (findNode_eq_none_iff pid n.children).mpr hpidch] at hfind
      exact ⟨P.children, by rw [TreeNode.eta]; exact hfind⟩
    · rw [if_neg hid] at hrem
      rcases hch : removeNode dragId n.children with ⟨o, cs⟩
      rcases o with _ | d2
      · rw [hch] at hrem
        rcases hrest : removeNode dragId rest with ⟨o2, rest2⟩
        rw [hrest] at hrem
        simp only at hrem
        injection hrem with h1 h2
        rcases o2 with _ | d3
        · cases h1
        · have hd : d3 = d := by injection h1
          subst hd
          subst h2
          by_cases hpn : n.page.id = pid
          · rw [if_pos hpn] at hfind
            injection hfind with hfind
            subst hfind
            refine ⟨n.children, ?_⟩
            rw [findNode, if_pos hpn, TreeNode.eta]
          · rw [if_neg hpn] at hfind
            rcases hfch : findNode pid n.children with _ | r
            · rw [hfch] at hfind
              rcases removeNode_keeps_other dragId pid rest d3 rest2 P hrest hout hfind with
                ⟨cs2, hres⟩
              refine ⟨cs2, ?_⟩
              rw [findNode, if_neg hpn, hfch]
              exact hres
            · rw [hfch] at hfind
              injection hfind with hfind
              subst hfind
              refine ⟨r.children, ?_⟩
              rw [findNode, if_neg hpn, hfch, TreeNode.eta]
      · rw [hch] at hrem
        injection hrem with h1 h2
        have hd : d2 = d := by injection h1
        subst hd
        subst h2
        by_cases hpn : n.page.id = pid
        · rw [if_pos hpn] at hfind
          injection hfind with hfind
          subst hfind
          refine ⟨cs, ?_⟩
          rw [findNode]
          simp only [TreeNode.page_mk]
          rw [if_pos hpn]
        · rw [if_neg hpn] at hfind
          rcases hfch : findNode pid n.children with _ | r
          · rw [hfch] at hfind
            have hnotch : pid ∉ treeIds n.children :=
              (findNode_eq_none_iff pid n.children).mp hfch
            have hnotcs : pid ∉ treeIds cs := by
              rcases removeNode_decomp dragId n.children d2 cs hch with ⟨A, B, hA, hB⟩
              rw [hB]
              rw [hA] at hnotch
              intro hc
              apply hnotch
              rcases List.mem_append.mp hc with hca | hcb
              · exact List.mem_append_left _ hca
              · exact List.mem_append_right _ (List.mem_append_right _ hcb)
            refine ⟨P.children, ?_⟩
            rw [findNode]
            simp only [TreeNode.page_mk, TreeNode.children_mk]
            rw [if_neg hpn, (findNode_eq_none_iff pid cs).mpr hnotcs, TreeNode.eta]
            exact hfind
          · rw [hfch] at hfind
            injection hfind with hfind
            subst hfind
            rcases removeNode_keeps_other dragId pid n.children d2 cs r hch hout hfch with
              ⟨cs2, hres⟩
            refine ⟨cs2, ?_⟩
            rw [findNode]
            simp only [TreeNode.page_mk, TreeNode.children_mk]
            rw [if_neg hpn, hres]
termination_by _ _ ns _ _ _ => sizeOf ns
decreasing_by
  all_goals (cases n; simp [TreeNode.children]; try omega)

/-- C8: moving a node (first match of the dragged id) under a target parent
that lies outside the moved subtree reattaches the node — with its page data
(only `parentId` rewritten to the new parent), its `isOpen` state, and its
entire child subtree unchanged — spliced into the target parent's children at
the requested index; no node of the forest is lost or duplicated (the id
multiset is preserved).  The source operates on a deep copy, so in this
value-level embedding the caller's input forest is untouched by construction. -/
theorem moveTreeNode_preserves_subtree (data : List TreeNode) (dragId pid : String)
    (idx : Nat) (n p : TreeNode)
    (hn : findNode dragId data = some n)
    (hp : findNode pid data = some p)
    (hout : pid ∉ subtreeIds n) :
    ∃ cs2 : List TreeNode,
      findNode pid (moveTreeNode data [dragId] (some pid) idx) =
        some (TreeNode.mk p.page p.isOpen (spliceInsert idx
          (TreeNode.mk { n.page with parentId := some pid } n.isOpen n.children) cs2)) ∧
      (treeIds (moveTreeNode data [dragId] (some pid) idx)).Perm (treeIds data) := by
  rcases hrem : removeNode dragId data with ⟨o, data2⟩
  have ho : o = some n := by
    have hfst := removeNode_fst dragId data
    rw [hrem] at hfst
    simp only at hfst
    rw [hfst, hn]
  subst ho
  simp only [moveTreeNode, hrem]
  rcases removeNode_keeps_other dragId pid data n data2 p hrem hout hp with ⟨cs2, hfind2⟩
  rcases insertIntoParent_found pid
      (TreeNode.mk { n.page with parentId := some pid } n.isOpen n.children) idx data2
      (TreeNode.mk p.page p.isOpen cs2) hfind2 with ⟨_, hres⟩
  refine ⟨cs2, ?_, ?_⟩
  · rw [hres]
    simp only [TreeNode.page_mk, TreeNode.isOpen_mk, TreeNode.children_mk]
  · have hids := insertIntoParent_ids pid
      (TreeNode.mk { n.page with parentId := some pid } n.isOpen n.children) idx data2
      (TreeNode.mk p.page p.isOpen cs2) hfind2
    have hsub : subtreeIds
        (TreeNode.mk { n.page with parentId := some pid } n.isOpen n.children) =
        subtreeIds n := by
      rw [subtreeIds, subtreeIds]
      simp
    rw [hsub] at hids
    rcases removeNode_decomp dragId data n data2 hrem with ⟨A, B, hA, hB⟩
    rw [hB] at hids
    rw [hA]
    exact hids.trans (perm_front_swap A (subtreeIds n) B).symm

/-- C10: when the target parent id occurs nowhere outside the dragged node's
own subtree (in particular when it names a descendant of the dragged node, or
no node at all), `moveTreeNode` silently drops the dragged node and its whole
subtree: the result is exactly the input forest with the dragged subtree's
contiguous pre-order block removed. -/
theorem moveTreeNode_drops_subtree (data : List TreeNode) (dragId pid : String)
    (idx : Nat) (n : TreeNode)
    (hnd : (treeIds data).Nodup)
    (hn : findNode dragId data = some n)
    (hpid : pid ∈ subtreeIds n ∨ pid ∉ treeIds data) :
    ∃ A B, treeIds data = A ++ (subtreeIds n ++ B) ∧
      treeIds (moveTreeNode data [dragId] (some pid) idx) = A ++ B := by
  rcases hrem : removeNode dragId data with ⟨o, data2⟩
  have ho : o = some n := by
    have hfst := removeNode_fst dragId data
    rw [hrem] at hfst
    simp only at hfst
    rw [hfst, hn]
  subst ho
  simp only [moveTreeNode, hrem]
  rcases removeNode_decomp dragId data n data2 hrem with ⟨A, B, hA, hB⟩
  have hnot : pid ∉ treeIds data2 := by
    rw [hB]
    rcases hpid with hin | hnotall
    · rw [hA] at hnd
      rcases List.nodup_append.mp hnd with ⟨_, hsb, hdisjA⟩
      rcases List.nodup_append.mp hsb with ⟨_, _, hdisjSB⟩
      intro hc
      rcases List.mem_append.mp hc with hcA | hcB
      · exact hdisjA hcA (List.mem_append_left _ hin)
      · exact hdisjSB hin hcB
    · rw [hA] at hnotall
      intro hc
      apply hnotall
      rcases List.mem_append.mp hc with hcA | hcB
      · exact List.mem_append_left _ hcA
      · exact List.mem_append_right _ (List.mem_append_right _ hcB)
  rw [insertIntoParent_not_found pid
    (TreeNode.mk { n.page with parentId := some pid } n.isOpen n.children) idx data2 hnot]
  exact ⟨A, B, hA, hB⟩

/-- A minimal page payload used by the concrete tree scenarios. -/
def mkPage (i : String) : SitePage :=
  { id := i, title := i, type := ContentType.page, parentId := none,
    url := "", summary := "", thumbnailUrl := "", menuOrder := 0 }

/-- Concrete forest for the C8 witness: a target parent `p` (with child `x`)
and a dragged node `n` with child `c`. -/
def forestMove : List TreeNode :=
  [TreeNode.mk (mkPage "p") false [TreeNode.mk (mkPage "x") false []],
   TreeNode.mk (mkPage "n") true [TreeNode.mk (mkPage "c") false []]]

theorem moveTreeNode_preserves_subtree_witness :
    ∃ cs2 : List TreeNode,
      findNode "p" (moveTreeNode forestMove ["n"] (some "p") 0) =
        some (TreeNode.mk (mkPage "p") false (spliceInsert 0
          (TreeNode.mk { mkPage "n" with parentId := some "p" } true
            [TreeNode.mk (mkPage "c") false []]) cs2)) ∧
      (treeIds (moveTreeNode forestMove ["n"] (some "p") 0)).Perm (treeIds forestMove) :=
  moveTreeNode_preserves_subtree forestMove "n" "p" 0
    (TreeNode.mk (mkPage "n") true [TreeNode.mk (mkPage "c") false []])
    (TreeNode.mk (mkPage "p") false [TreeNode.mk (mkPage "x") false []])
    (by simp +decide [findNode, forestMove, mkPage])
    (by simp +decide [findNode, forestMove, mkPage])
    (by simp +decide [subtreeIds, treeIds, mkPage])

/-- Concrete forest for the C10 witness: dragging `n` onto its own child `c`. -/
def forestDrop : List TreeNode :=
  [TreeNode.mk (mkPage "r") false [],
   TreeNode.mk (mkPage "n") false [TreeNode.mk (mkPage "c") false []]]

theorem moveTreeNode_drops_subtree_witness :
    ∃ A B, treeIds forestDrop =
        A ++ (subtreeIds (TreeNode.mk (mkPage "n") false
          [TreeNode.mk (mkPage "c") false []]) ++ B) ∧
      treeIds (moveTreeNode forestDrop ["n"] (some "c") 0) = A ++ B :=
  moveTreeNode_drops_subtree forestDrop "n" "c" 0
    (TreeNode.mk (mkPage "n") false [TreeNode.mk (mkPage "c") false []])
    (by simp +decide [treeIds, forestDrop, mkPage])
    (by simp +decide [findNode, forestDrop, mkPage])
    (Or.inl (by simp +decide [subtreeIds, treeIds, mkPage]))

/-- Concrete forest for the C9 witness: a root `r` with one child `c`. -/
def forestPatch : List TreeNode :=
  [TreeNode.mk (mkPage "r") false [TreeNode.mk (mkPage "c") true []]]

/-- Concrete partial update for the C9 witness: a new title. -/
def patchTitle : PagePatch := { title := some "Neu" }

theorem updateNodeDataInTree_frame_witness :
    treeShape (updateNodeDataInTree forestPatch "c" patchTitle) = treeShape forestPatch ∧
    treePayloads (updateNodeDataInTree forestPatch "c" patchTitle) =
      (treePayloads forestPatch).map
        (fun pr => if pr.1.id = "c" then (applyPatch pr.1 patchTitle, pr.2) else pr) :=
  updateNodeDataInTree_frame forestPatch "c" patchTitle
    (by simp +decide [treeIds, forestPatch, mkPage])

/-! ## Claim C2: the build/flatten round trip

The round trip is analyzed through the `(id, parentId)` pairs each side
carries.  `nodePairs` reads the pairs off a forest by position (the parent a
`flattenTree` call would assign); `builtPages` lists the pages visited while
building the subtrees under a given id; `ancIter` follows the (normalized,
id-resolved) parent relation upward.  `TreeCtx` packages the hypotheses of
the amended claim: distinct ids, no `"0"` and no `""` parents (both are
normalized or treated as falsy by the source), no dangling parents, and a
rank function witnessing acyclicity, bounded by the page count (for an
acyclic parent relation the depth function is such a rank). -/

/-- The `(id, parent-by-position)` pairs of a forest, in pre-order. -/
def nodePairs : List TreeNode → Option String → List (String × Option String)
  | [], _ => []
  | n :: rest, pid =>
    (n.page.id, pid) :: (nodePairs n.children (some n.page.id) ++ nodePairs rest pid)
termination_by ns _ => sizeOf ns
decreasing_by
  all_goals (cases n; simp [TreeNode.children]; try omega)

/-- The pages visited when building the children of the node with id `x`,
in raw (unsorted) visit order. -/
def builtPages (pages : List SitePage) : Nat → String → List SitePage
  | 0, _ => []
  | fuel + 1, x =>
    (childPages pages x).flatMap fun c => c :: builtPages pages fuel c.id

/-- The normalized parent id of the page bearing id `x`, when there is one. -/
def parentIdOf (pages : List SitePage) (x : String) : Option String :=
  (pages.find? fun b => b.id = x).bind safeParentId

/-- `j`-fold iteration of `parentIdOf`. -/
def ancIter (pages : List SitePage) : Nat → String → Option String
  | 0, x => some x
  | j + 1, x => (parentIdOf pages x).bind (ancIter pages j)

/-- Whether some ancestor of `a`, within `fuel` upward steps, bears id `x`. -/
def reachesWithin (pages : List SitePage) (fuel : Nat) (a : SitePage) (x : String) : Bool :=
  (List.range fuel).any fun j => ancIter pages (j + 1) a.id == some x

/-- The hypotheses of the amended round-trip claim, bundled: pairwise
distinct ids, no `"0"` and no empty parent strings, no dangling parent
references, and a rank function that witnesses acyclicity of the parent
relation and is bounded by the page count. -/
structure TreeCtx where
  pages : List SitePage
  rank : String → Nat
  nodupIds : (pages.map fun p => p.id).Nodup
  noZero : ∀ p ∈ pages, p.parentId ≠ some "0"
  noEmpty : ∀ p ∈ pages, p.parentId ≠ some ""
  noDangling : ∀ p ∈ pages, ∀ pid, p.parentId = some pid → ∃ q ∈ pages, q.id = pid
  rankLt : ∀ p ∈ pages, ∀ pid, p.parentId = some pid → rank pid < rank p.id
  rankBound : ∀ p ∈ pages, rank p.id < pages.length

theorem TreeCtx.pagesNodup (Γ : TreeCtx) : Γ.pages.Nodup :=
  Γ.nodupIds.of_map

/-- With no `"0"` parents the defensive normalization is the identity. -/
theorem TreeCtx.safe_eq (Γ : TreeCtx) {p : SitePage} (hp : p ∈ Γ.pages) :
    safeParentId p = p.parentId := by
  rw [safeParentId, if_neg (Γ.noZero p hp)]

/-- A normalized parent is a plain parent. -/
theorem safeParentId_some {p : SitePage} {x : String} (h : safeParentId p = some x) :
    p.parentId = some x := by
  rw [safeParentId] at h
  by_cases h0 : p.parentId = some "0"
  · rw [if_pos h0] at h; cases h
  · rwa [if_neg h0] at h

/-- Under distinct ids, looking a member page up by its own id finds it. -/
theorem find?_self : ∀ (l : List SitePage), (l.map fun p => p.id).Nodup →
    ∀ a ∈ l, (l.find? fun b => b.id = a.id) = some a
  | [], _, a, ha => by cases ha
  | h :: t, hnd, a, ha => by
    rw [List.map_cons, List.nodup_cons] at hnd
    rcases List.mem_cons.mp ha with rfl | hat
    · rw [List.find?_cons_of_pos]
      simp
    · rw [List.find?_cons_of_neg, find?_self t hnd.2 a hat]
      simp only [decide_eq_true_eq]
      intro he
      exact hnd.1 (he ▸ List.mem_map_of_mem (fun p => p.id) hat)

/-- Under distinct ids, equal ids mean equal pages. -/
theorem TreeCtx.id_inj (Γ : TreeCtx) {a b : SitePage} (ha : a ∈ Γ.pages)
    (hb : b ∈ Γ.pages) (h : a.id = b.id) : a = b := by
  have h1 := find?_self Γ.pages Γ.nodupIds a ha
  have h2 := find?_self Γ.pages Γ.nodupIds b hb
  rw [h] at h1
  rw [h1] at h2
  injection h2

/-- For a member page, the id-resolved parent is its own normalized parent. -/
theorem TreeCtx.parentIdOf_eq (Γ : TreeCtx) {a : SitePage} (ha : a ∈ Γ.pages) :
    parentIdOf Γ.pages a.id = safeParentId a := by
  rw [parentIdOf, find?_self Γ.pages Γ.nodupIds a ha, Option.some_bind]

/-- A resolved parent step strictly lowers the rank. -/
theorem TreeCtx.rank_parent (Γ : TreeCtx) {x y : String}
    (h : parentIdOf Γ.pages x = some y) : Γ.rank y < Γ.rank x := by
  rw [parentIdOf] at h
  rcases hf : Γ.pages.find? fun b => b.id = x with _ | b
  · rw [hf] at h; cases h
  · rw [hf, Option.some_bind] at h
    have hbmem := List.mem_of_find?_eq_some hf
    have hbid : b.id = x := by
      have := List.find?_some hf
      simpa using this
    have := Γ.rankLt b hbmem y (safeParentId_some h)
    rwa [hbid] at this

/-- One iteration step is one parent resolution. -/
theorem ancIter_one (pages : List SitePage) (x : String) :
    ancIter pages 1 x = parentIdOf pages x := by
  rw [ancIter]
  rcases parentIdOf pages x with _ | y
  · rfl
  · rw [Option.some_bind, ancIter]

/-- Ancestor iteration splits into consecutive runs. -/
theorem ancIter_add (pages : List SitePage) :
    ∀ (k m : Nat) (x : String),
      ancIter pages (k + m) x = (ancIter pages k x).bind (ancIter pages m)
  | 0, m, x => by rw [Nat.zero_add, ancIter, Option.some_bind]
  | k + 1, m, x => by
    rw [Nat.succ_add, ancIter, ancIter, Option.bind_assoc]
    rcases parentIdOf pages x with _ | y
    · rfl
    · rw [Option.some_bind, Option.some_bind, ancIter_add pages k m y]

/-- A proper ancestor has strictly lower rank. -/
theorem TreeCtx.rank_ancIter (Γ : TreeCtx) :
    ∀ (j : Nat) (x y : String), ancIter Γ.pages (j + 1) x = some y →
      Γ.rank y < Γ.rank x
  | 0, x, y => by
    rw [ancIter_one]
    exact fun h => Γ.rank_parent h
  | j + 1, x, y => by
    intro h
    rw [ancIter] at h
    rcases hp : parentIdOf Γ.pages x with _ | z
    · rw [hp] at h; cases h
    · rw [hp, Option.some_bind] at h
      exact lt_trans (Γ.rank_ancIter j z y h) (Γ.rank_parent hp)

/-- Each value occurs at most once along an ancestor chain. -/
theorem TreeCtx.ancIter_inj (Γ : TreeCtx) {j k : Nat} {x : String} {v : String}
    (hj : ancIter Γ.pages j x = some v) (hk : ancIter Γ.pages k x = some v) : j = k := by
  rcases le_total j k with hle | hle
  · rcases Nat.exists_eq_add_of_le hle with ⟨m, rfl⟩
    rcases m with _ | m2
    · rfl
    · exfalso
      rw [ancIter_add Γ.pages j (m2 + 1) x, hj, Option.some_bind] at hk
      exact lt_irrefl _ (Γ.rank_ancIter m2 v v hk)
  · rcases Nat.exists_eq_add_of_le hle with ⟨m, rfl⟩
    rcases m with _ | m2
    · rfl
    · exfalso
      rw [ancIter_add Γ.pages k (m2 + 1) x, hk, Option.some_bind] at hj
      exact lt_irrefl _ (Γ.rank_ancIter m2 v v hj)

/-- Resolving a parent id exposes the page that carries it. -/
theorem parentIdOf_rev (pages : List SitePage) {w x : String}
    (h : parentIdOf pages w = some x) :
    ∃ b, b ∈ pages ∧ b.id = w ∧ safeParentId b = some x := by
  rw [parentIdOf] at h
  rcases hf : pages.find? fun b => b.id = w with _ | b
  · rw [hf] at h; cases h
  · rw [hf, Option.some_bind] at h
    exact ⟨b, List.mem_of_find?_eq_some hf, by simpa using List.find?_some hf, h⟩

/-- Membership in a child list, unfolded: the attachment condition requires
the normalized parent to be truthy (non-empty) as well as resolvable. -/
theorem childPages_mem_iff (pages : List SitePage) (x : String) (c : SitePage) :
    c ∈ childPages pages x ↔ c ∈ pages ∧ safeParentId c = some x ∧ x ≠ "" := by
  rw [childPages, List.mem_filter]
  constructor
  · rintro ⟨hm, hc⟩
    rcases hs : safeParentId c with _ | s
    · rw [hs] at hc
      cases hc
    · rw [hs] at hc
      have hc2 : (!(s == "") && s == x) = true := hc
      simp only [Bool.and_eq_true] at hc2
      rcases hc2 with ⟨hne, heq⟩
      have hsx : s = x := by simpa using heq
      subst hsx
      refine ⟨hm, rfl, ?_⟩
      simpa using hne
  · rintro ⟨hm, hp, hx⟩
    refine ⟨hm, ?_⟩
    rw [hp]
    show (!(x == "") && x == x) = true
    simp [hx]

/-- Under the no-empty-parent hypothesis a resolved parent id is non-empty. -/
theorem TreeCtx.safe_ne_empty (Γ : TreeCtx) {p : SitePage} {x : String}
    (hp : p ∈ Γ.pages) (h : safeParentId p = some x) : x ≠ "" := by
  intro hx
  subst hx
  exact Γ.noEmpty p hp (safeParentId_some h)

/-- With no empty parent strings the truthiness check is automatic and
child-list membership reduces to the parent equation. -/
theorem TreeCtx.mem_childPages (Γ : TreeCtx) (x : String) (c : SitePage) :
    c ∈ childPages Γ.pages x ↔ c ∈ Γ.pages ∧ safeParentId c = some x := by
  rw [childPages_mem_iff Γ.pages x c]
  constructor
  · rintro ⟨hm, hp, _⟩
    exact ⟨hm, hp⟩
  · rintro ⟨hm, hp⟩
    exact ⟨hm, hp, Γ.safe_ne_empty hm hp⟩

theorem TreeCtx.childPages_nodup (Γ : TreeCtx) (x : String) :
    (childPages Γ.pages x).Nodup :=
  Γ.pagesNodup.filter _

/-- Realizing `reachesWithin` as an existential over chain lengths. -/
theorem reachesWithin_iff (pages : List SitePage) (fuel : Nat) (a : SitePage) (x : String) :
    reachesWithin pages fuel a x = true ↔
      ∃ j, j < fuel ∧ ancIter pages (j + 1) a.id = some x := by
  rw [reachesWithin, List.any_eq_true]
  constructor
  · rintro ⟨j, hj, hb⟩
    exact ⟨j, List.mem_range.mp hj, by simpa using hb⟩
  · rintro ⟨j, hj, he⟩
    exact ⟨j, List.mem_range.mpr hj, by simp [he]⟩

/-- A page with no (normalized) parent reaches nothing upward. -/
theorem TreeCtx.reaches_false_of_no_parent (Γ : TreeCtx) {a : SitePage}
    (ha : a ∈ Γ.pages) (hsa : safeParentId a = none) (fuel : Nat) (x : String) :
    reachesWithin Γ.pages fuel a x = false := by
  rw [Bool.eq_false_iff]
  intro h
  rcases (reachesWithin_iff Γ.pages fuel a x).mp h with ⟨j, _, he⟩
  rw [ancIter, Γ.parentIdOf_eq ha, hsa, Option.none_bind] at he
  cases he

/-- Extending an ancestor chain that ends at a child of `x` by one step
reaches `x`. -/
theorem TreeCtx.anc_child_step (Γ : TreeCtx) {c : SitePage} {x : String}
    (hc : c ∈ Γ.pages) (hcx : safeParentId c = some x) (j : Nat) (a : SitePage)
    (h : ancIter Γ.pages (j + 1) a.id = some c.id) :
    ancIter Γ.pages (j + 1 + 1) a.id = some x := by
  rw [ancIter_add Γ.pages (j + 1) 1 a.id, h, Option.some_bind, ancIter_one,
    Γ.parentIdOf_eq hc, hcx]

/-- Counting through a visit block: head contributions plus the per-head
recursive contributions. -/
theorem count_flatMap_block (a : SitePage) (F : SitePage → List SitePage) :
    ∀ cs : List SitePage,
      (cs.flatMap fun c => c :: F c).count a =
        cs.count a + (cs.map fun c => (F c).count a).sum
  | [] => by simp
  | c :: cs => by
    rw [List.flatMap_cons, List.count_append, count_flatMap_block a F cs,
      List.map_cons, List.sum_cons, List.count_cons, List.count_cons]
    omega

/-- A sum of zero-one terms is a count of the ones. -/
theorem sum_map_ite {α : Type} (f : α → Nat) (P : α → Bool) :
    ∀ cs : List α, (∀ c ∈ cs, f c = if P c then 1 else 0) →
      (cs.map f).sum = cs.countP P
  | [], _ => rfl
  | c :: cs, h => by
    rw [List.map_cons, List.sum_cons, List.countP_cons,
      sum_map_ite f P cs fun x hx => h x (List.mem_cons_of_mem c hx),
      h c (List.mem_cons_self c cs)]
    omega

/-- A predicate holding for at most one element of a duplicate-free list has
count zero or one, according to whether some element satisfies it. -/
theorem countP_eq_ite_of_unique {α : Type} [DecidableEq α] (cs : List α) (P : α → Bool)
    (hnd : cs.Nodup)
    (huniq : ∀ c1 ∈ cs, ∀ c2 ∈ cs, P c1 = true → P c2 = true → c1 = c2) :
    cs.countP P = if cs.any P then 1 else 0 := by
  cases hany : cs.any P
  · rw [if_neg (by simp), List.countP_eq_zero]
    intro a ha hPa
    have := List.any_eq_false.mp hany a ha
    exact this hPa
  · rw [if_pos rfl]
    rcases List.any_eq_true.mp hany with ⟨c0, hc0, hPc0⟩
    have hcongr : cs.countP P = cs.countP fun x => x == c0 := by
      apply List.countP_congr
      intro a ha
      constructor
      · intro hPa
        have := huniq a ha c0 hc0 hPa hPc0
        simp [this]
      · intro he
        have h2 : a = c0 := by simpa using he
        rw [h2]; exact hPc0
    rw [hcongr, ← List.count_eq_countP]
    exact List.count_eq_one_of_mem hnd hc0

/-- Two children of `x` reached by ancestor chains of `a` coincide. -/
theorem TreeCtx.builtChild_unique (Γ : TreeCtx) (fuel : Nat) (x : String) (a : SitePage) :
    ∀ c1 ∈ childPages Γ.pages x, ∀ c2 ∈ childPages Γ.pages x,
      reachesWithin Γ.pages fuel a c1.id = true →
      reachesWithin Γ.pages fuel a c2.id = true → c1 = c2 := by
  intro c1 h1 c2 h2 hr1 hr2
  rcases (reachesWithin_iff Γ.pages fuel a c1.id).mp hr1 with ⟨j1, _, ha1⟩
  rcases (reachesWithin_iff Γ.pages fuel a c2.id).mp hr2 with ⟨j2, _, ha2⟩
  rcases (Γ.mem_childPages x c1).mp h1 with ⟨hm1, hp1⟩
  rcases (Γ.mem_childPages x c2).mp h2 with ⟨hm2, hp2⟩
  have e1 := Γ.anc_child_step hm1 hp1 j1 a ha1
  have e2 := Γ.anc_child_step hm2 hp2 j2 a ha2
  have hj : j1 + 1 + 1 = j2 + 1 + 1 := Γ.ancIter_inj e1 e2
  have hjj : j1 = j2 := by omega
  subst hjj
  rw [ha1] at ha2
  injection ha2 with hid
  exact Γ.id_inj hm1 hm2 hid

/-- The page `a` occurs in the pages built under `x` exactly once if some
ancestor chain of `a` reaches `x` within the fuel, else not at all. -/
theorem TreeCtx.count_builtPages (Γ : TreeCtx) :
    ∀ (fuel : Nat) (x : String) (a : SitePage), a ∈ Γ.pages →
      (builtPages Γ.pages fuel x).count a =
        if reachesWithin Γ.pages fuel a x then 1 else 0
  | 0, x, a => by
    intro _
    simp [builtPages, reachesWithin]
  | fuel + 1, x, a => by
    intro ha
    rw [builtPages, count_flatMap_block a fun c => builtPages Γ.pages fuel c.id,
      sum_map_ite (fun c => (builtPages Γ.pages fuel c.id).count a)
        (fun c => reachesWithin Γ.pages fuel a c.id) (childPages Γ.pages x)
        (fun c _ => Γ.count_builtPages fuel c.id a ha),
      countP_eq_ite_of_unique (childPages Γ.pages x)
        (fun c => reachesWithin Γ.pages fuel a c.id) (Γ.childPages_nodup x)
        (Γ.builtChild_unique fuel x a)]
    rcases hsa : safeParentId a with _ | z
    · have hcnt : (childPages Γ.pages x).count a = 0 := by
        rw [List.count_eq_zero]
        intro hmem
        have := ((Γ.mem_childPages x a).mp hmem).2
        rw [hsa] at this
        cases this
      have hany : ((childPages Γ.pages x).any
          fun c => reachesWithin Γ.pages fuel a c.id) = false := by
        rw [List.any_eq_false]
        intro c0 hc0 hr0
        have := Γ.reaches_false_of_no_parent ha hsa fuel c0.id
        rw [hr0] at this
        cases this
      rw [hcnt, hany, Γ.reaches_false_of_no_parent ha hsa (fuel + 1) x]
      simp [Bool.false_eq_true]
    · by_cases hzx : z = x
      · rw [hzx] at hsa
        have hmem : a ∈ childPages Γ.pages x :=
          (Γ.mem_childPages x a).mpr ⟨ha, hsa⟩
        have hone : ancIter Γ.pages 1 a.id = some x := by
          rw [ancIter_one, Γ.parentIdOf_eq ha, hsa]
        rw [List.count_eq_one_of_mem (Γ.childPages_nodup x) hmem, if_neg, if_pos]
        · exact (reachesWithin_iff Γ.pages (fuel + 1) a x).mpr ⟨0, by omega, hone⟩
        · intro hc
          rcases List.any_eq_true.mp hc with ⟨c0, hc0, hr0⟩
          rcases (reachesWithin_iff Γ.pages fuel a c0.id).mp hr0 with ⟨j, _, he⟩
          rcases (Γ.mem_childPages x c0).mp hc0 with ⟨hm0, hp0⟩
          have e0 := Γ.anc_child_step hm0 hp0 j a he
          have := Γ.ancIter_inj e0 hone
          omega
      · have hcnt : (childPages Γ.pages x).count a = 0 := by
          rw [List.count_eq_zero]
          intro hmem
          have := ((Γ.mem_childPages x a).mp hmem).2
          rw [hsa] at this
          injection this with this
          exact hzx this
        rw [hcnt]
        cases hany : (childPages Γ.pages x).any fun c => reachesWithin Γ.pages fuel a c.id
        · rw [if_neg (by simp), if_neg]
          intro hr
          rcases (reachesWithin_iff Γ.pages (fuel + 1) a x).mp hr with ⟨j, hj, he⟩
          rcases j with _ | j2
          · rw [ancIter_one, Γ.parentIdOf_eq ha, hsa] at he
            injection he with he
            exact hzx he
          · rw [ancIter_add Γ.pages (j2 + 1) 1 a.id] at he
            rcases Option.bind_eq_some.mp he with ⟨w, hw, hw1⟩
            rw [ancIter_one] at hw1
            rcases parentIdOf_rev Γ.pages hw1 with ⟨b, hbmem, hbid, hbp⟩
            have hbm : b ∈ childPages Γ.pages x :=
              (Γ.mem_childPages x b).mpr ⟨hbmem, hbp⟩
            have hrb : reachesWithin Γ.pages fuel a b.id = true :=
              (reachesWithin_iff Γ.pages fuel a b.id).mpr
                ⟨j2, by omega, by rw [hw, hbid]⟩
            have := List.any_eq_false.mp hany b hbm
            exact this hrb
        · rw [if_pos rfl, if_pos]
          rcases List.any_eq_true.mp hany with ⟨c0, hc0, hr0⟩
          rcases (reachesWithin_iff Γ.pages fuel a c0.id).mp hr0 with ⟨j, hj, he⟩
          rcases (Γ.mem_childPages x c0).mp hc0 with ⟨hm0, hp0⟩
          exact (reachesWithin_iff Γ.pages (fuel + 1) a x).mpr
            ⟨j + 1, by omega, Γ.anc_child_step hm0 hp0 j a he⟩

/-- Every page visited during building is a crawl page. -/
theorem builtPages_subset (pages : List SitePage) :
    ∀ (fuel : Nat) (x : String) (c : SitePage), c ∈ builtPages pages fuel x → c ∈ pages
  | 0, x, c => by intro h; rw [builtPages] at h; cases h
  | fuel + 1, x, c => by
    intro h
    rw [builtPages, List.mem_flatMap] at h
    rcases h with ⟨c0, hc0, hc⟩
    rcases List.mem_cons.mp hc with rfl | hdeep
    · exact List.mem_of_mem_filter hc0
    · exact builtPages_subset pages fuel c0.id c hdeep

theorem TreeCtx.rootPages_nodup (Γ : TreeCtx) : (rootPages Γ.pages).Nodup :=
  Γ.pagesNodup.filter _

/-- Every page with a parent has an ancestor chain, of length bounded by its
rank, that ends at a root page. -/
theorem TreeCtx.chain_to_root (Γ : TreeCtx) (a : SitePage) (ha : a ∈ Γ.pages)
    (pid : String) (hpid : a.parentId = some pid) :
    ∃ r j, r ∈ rootPages Γ.pages ∧ 1 ≤ j ∧ j ≤ Γ.rank a.id ∧
      ancIter Γ.pages j a.id = some r.id := by
  rcases Γ.noDangling a ha pid hpid with ⟨b, hb, hbid⟩
  have hsa : safeParentId a = some pid := by rw [Γ.safe_eq ha, hpid]
  have hrk : Γ.rank b.id < Γ.rank a.id := by
    have := Γ.rankLt a ha pid hpid
    rwa [hbid]
  rcases hbp : b.parentId with _ | pid2
  · have hsb : safeParentId b = none := by
      rw [safeParentId, hbp]
      simp
    have hbroot : b ∈ rootPages Γ.pages := by
      rw [rootPages, List.mem_filter]
      exact ⟨hb, by rw [hsb]⟩
    refine ⟨b, 1, hbroot, le_refl 1, by omega, ?_⟩
    rw [ancIter_one, Γ.parentIdOf_eq ha, hsa, hbid]
  · rcases Γ.chain_to_root b hb pid2 hbp with ⟨r, j, hr, hj1, hjle, hanc⟩
    refine ⟨r, j + 1, hr, by omega, by omega, ?_⟩
    rw [ancIter, Γ.parentIdOf_eq ha, hsa, ← hbid, Option.some_bind]
    exact hanc
termination_by Γ.rank a.id

/-- A root's id resolves to no parent. -/
theorem TreeCtx.root_no_parent (Γ : TreeCtx) {r : SitePage}
    (h : r ∈ rootPages Γ.pages) : parentIdOf Γ.pages r.id = none := by
  rw [rootPages, List.mem_filter] at h
  rcases h with ⟨hmem, hcond⟩
  rw [Γ.parentIdOf_eq hmem]
  rcases hsr : safeParentId r with _ | pid
  · rfl
  · exfalso
    rw [hsr] at hcond
    have hcond2 : (pid == "" || !(Γ.pages.any fun q => q.id = pid)) = true := hcond
    have hpe : (pid == "") = false := by
      simpa using Γ.safe_ne_empty hmem hsr
    rcases Γ.noDangling r hmem pid (safeParentId_some hsr) with ⟨q, hq, hqid⟩
    have hq2 : (Γ.pages.any fun q2 => q2.id = pid) = true :=
      List.any_eq_true.mpr ⟨q, hq, by simp [hqid]⟩
    rw [hpe, hq2, Bool.false_or] at hcond2
    cases hcond2

/-- A root page carries no parent id at all. -/
theorem TreeCtx.root_parent_none (Γ : TreeCtx) {r : SitePage}
    (h : r ∈ rootPages Γ.pages) : r.parentId = none := by
  have hp := Γ.root_no_parent h
  have hmem := List.mem_of_mem_filter h
  rw [Γ.parentIdOf_eq hmem, Γ.safe_eq hmem] at hp
  exact hp

/-- An ancestor chain cannot continue past a parent-less value. -/
theorem TreeCtx.anc_stops (Γ : TreeCtx) {x v w : String} {j k : Nat}
    (hj : ancIter Γ.pages j x = some v) (hjk : j ≤ k)
    (hv : parentIdOf Γ.pages v = none) (hk : ancIter Γ.pages k x = some w) :
    v = w := by
  rcases Nat.exists_eq_add_of_le hjk with ⟨m, rfl⟩
  rw [ancIter_add Γ.pages j m x, hj, Option.some_bind] at hk
  rcases m with _ | m2
  · rw [ancIter] at hk
    exact Option.some.inj hk
  · rw [ancIter, hv, Option.none_bind] at hk
    cases hk

/-- Two roots reached by ancestor chains of the same page coincide. -/
theorem TreeCtx.roots_reached_unique (Γ : TreeCtx) (N : Nat) (a : SitePage) :
    ∀ r1 ∈ rootPages Γ.pages, ∀ r2 ∈ rootPages Γ.pages,
      reachesWithin Γ.pages N a r1.id = true →
      reachesWithin Γ.pages N a r2.id = true → r1 = r2 := by
  intro r1 h1 r2 h2 hr1 hr2
  rcases (reachesWithin_iff Γ.pages N a r1.id).mp hr1 with ⟨j1, _, ha1⟩
  rcases (reachesWithin_iff Γ.pages N a r2.id).mp hr2 with ⟨j2, _, ha2⟩
  have hp1 := Γ.root_no_parent h1
  have hp2 := Γ.root_no_parent h2
  rcases le_total (j1 + 1) (j2 + 1) with hle | hle
  · exact Γ.id_inj (List.mem_of_mem_filter h1) (List.mem_of_mem_filter h2)
      (Γ.anc_stops ha1 hle hp1 ha2)
  · exact (Γ.id_inj (List.mem_of_mem_filter h2) (List.mem_of_mem_filter h1)
      (Γ.anc_stops ha2 hle hp2 ha1)).symm

/-- The multiset of pages visited by the whole build — each root followed by
everything built beneath it — is exactly the input page list. -/
theorem TreeCtx.builtForest_perm (Γ : TreeCtx) :
    ((rootPages Γ.pages).flatMap fun r =>
      r :: builtPages Γ.pages Γ.pages.length r.id).Perm Γ.pages := by
  rw [List.perm_iff_count]
  intro a
  by_cases ha : a ∈ Γ.pages
  · rw [count_flatMap_block a fun r => builtPages Γ.pages Γ.pages.length r.id,
      sum_map_ite (fun r => (builtPages Γ.pages Γ.pages.length r.id).count a)
        (fun r => reachesWithin Γ.pages Γ.pages.length a r.id) (rootPages Γ.pages)
        (fun r _ => Γ.count_builtPages Γ.pages.length r.id a ha),
      countP_eq_ite_of_unique (rootPages Γ.pages)
        (fun r => reachesWithin Γ.pages Γ.pages.length a r.id) Γ.rootPages_nodup
        (Γ.roots_reached_unique Γ.pages.length a),
      List.count_eq_one_of_mem Γ.pagesNodup ha]
    rcases hap : a.parentId with _ | pid
    · have hsa : safeParentId a = none := by
        rw [safeParentId, hap]
        simp
      have hmem : a ∈ rootPages Γ.pages := by
        rw [rootPages, List.mem_filter]
        exact ⟨ha, by rw [hsa]⟩
      have hany : ((rootPages Γ.pages).any
          fun r => reachesWithin Γ.pages Γ.pages.length a r.id) = false := by
        rw [List.any_eq_false]
        intro r hr hrr
        have := Γ.reaches_false_of_no_parent ha hsa Γ.pages.length r.id
        rw [hrr] at this
        cases this
      rw [List.count_eq_one_of_mem Γ.rootPages_nodup hmem, hany]
      simp [Bool.false_eq_true]
    · have hcnt : (rootPages Γ.pages).count a = 0 := by
        rw [List.count_eq_zero]
        intro hmem
        have := Γ.root_parent_none hmem
        rw [hap] at this
        cases this
      rcases Γ.chain_to_root a ha pid hap with ⟨r, j, hr, hj1, hjle, hanc⟩
      have hbd := Γ.rankBound a ha
      have hany : ((rootPages Γ.pages).any
          fun r2 => reachesWithin Γ.pages Γ.pages.length a r2.id) = true := by
        refine List.any_eq_true.mpr ⟨r, hr, ?_⟩
        refine (reachesWithin_iff Γ.pages Γ.pages.length a r.id).mpr
          ⟨j - 1, by omega, ?_⟩
        rw [show j - 1 + 1 = j from by omega]
        exact hanc
      rw [hcnt, hany, if_pos rfl]
  · have h1 : Γ.pages.count a = 0 := List.count_eq_zero.mpr ha
    have h2 : ((rootPages Γ.pages).flatMap fun r =>
        r :: builtPages Γ.pages Γ.pages.length r.id).count a = 0 := by
      rw [List.count_eq_zero]
      intro hmem
      rw [List.mem_flatMap] at hmem
      rcases hmem with ⟨r, hr, hm⟩
      rcases List.mem_cons.mp hm with rfl | hdeep
      · exact ha (List.mem_of_mem_filter hr)
      · exact ha (builtPages_subset Γ.pages Γ.pages.length r.id a hdeep)
    rw [h1, h2]

/-- `nodePairs` as a `flatMap` over the top level. -/
theorem nodePairs_eq_flatMap :
    ∀ (ns : List TreeNode) (pid : Option String),
      nodePairs ns pid =
        ns.flatMap fun n => (n.page.id, pid) :: nodePairs n.children (some n.page.id)
  | [], _ => by rw [nodePairs]; rfl
  | n :: rest, pid => by
    rw [nodePairs, List.flatMap_cons, nodePairs_eq_flatMap rest pid]
    rfl

/-- `nodePairs` over nodes wrapped from pages. -/
theorem nodePairs_map_mk (B : SitePage → List TreeNode) (pid : Option String) :
    ∀ cs : List SitePage,
      nodePairs (cs.map fun c => TreeNode.mk c false (B c)) pid =
        cs.flatMap fun c => (c.id, pid) :: nodePairs (B c) (some c.id)
  | [] => by rw [List.map_nil, nodePairs]; rfl
  | c :: cs => by
    rw [List.map_cons, nodePairs, List.flatMap_cons]
    simp only [TreeNode.page_mk, TreeNode.children_mk]
    rw [nodePairs_map_mk B pid cs]
    rfl

/-- The menu-order sort permutes its input. -/
theorem sortByMenuOrder_perm (l : List SitePage) : (sortByMenuOrder l).Perm l :=
  List.perm_insertionSort (fun a b : SitePage => a.menuOrder ≤ b.menuOrder) l

/-- The positional pairs of the built child subtrees are, up to order, the
visited pages with their own stored parent ids. -/
theorem TreeCtx.buildChildren_pairs (Γ : TreeCtx) :
    ∀ (fuel : Nat) (x : String),
      (nodePairs (buildChildren Γ.pages fuel x) (some x)).Perm
        ((builtPages Γ.pages fuel x).map fun p => (p.id, p.parentId))
  | 0, x => by
    rw [buildChildren, builtPages, nodePairs, List.map_nil]
  | fuel + 1, x => by
    rw [buildChildren, builtPages,
      nodePairs_map_mk (fun c => buildChildren Γ.pages fuel c.id) (some x)
        (sortByMenuOrder (childPages Γ.pages x)),
      List.map_flatMap]
    have h1 := List.Perm.flatMap_right
      (fun c => ((c.id, some x) :: nodePairs (buildChildren Γ.pages fuel c.id) (some c.id)))
      (sortByMenuOrder_perm (childPages Γ.pages x))
    refine h1.trans (List.Perm.flatMap_left (childPages Γ.pages x) ?_)
    intro c hc
    rcases (Γ.mem_childPages x c).mp hc with ⟨_, hp⟩
    have hcp : c.parentId = some x := safeParentId_some hp
    rw [List.map_cons, ← hcp]
    exact (Γ.buildChildren_pairs fuel c.id).cons (c.id, c.parentId)

/-- The positional pairs of the whole built tree are, up to order, the input
pages' own `(id, parentId)` pairs. -/
theorem TreeCtx.buildTree_pairs (Γ : TreeCtx) :
    (nodePairs (buildTreeFromPages Γ.pages) none).Perm
      (Γ.pages.map fun p => (p.id, p.parentId)) := by
  rw [buildTreeFromPages, nodePairs_eq_flatMap, sortRootsByDescendantCount]
  have h0 := List.Perm.flatMap_right
    (fun n => ((n.page.id, (none : Option String)) ::
      nodePairs n.children (some n.page.id)))
    (List.perm_insertionSort
      (fun a b : TreeNode => getDescendantCount b ≤ getDescendantCount a)
      ((sortByMenuOrder (rootPages Γ.pages)).map fun p =>
        TreeNode.mk p false (buildChildren Γ.pages Γ.pages.length p.id)))
  refine h0.trans ?_
  rw [← nodePairs_eq_flatMap,
    nodePairs_map_mk (fun p => buildChildren Γ.pages Γ.pages.length p.id) none
      (sortByMenuOrder (rootPages Γ.pages))]
  have h1 := List.Perm.flatMap_right
    (fun p => ((p.id, (none : Option String)) ::
      nodePairs (buildChildren Γ.pages Γ.pages.length p.id) (some p.id)))
    (sortByMenuOrder_perm (rootPages Γ.pages))
  refine (h1.trans ?_).trans (Γ.builtForest_perm.map fun p => (p.id, p.parentId))
  rw [List.map_flatMap]
  refine List.Perm.flatMap_left (rootPages Γ.pages) ?_
  intro r hr
  rw [List.map_cons, ← Γ.root_parent_none hr]
  exact (Γ.buildChildren_pairs Γ.pages.length r.id).cons (r.id, r.parentId)

/-- Flattening reads back exactly the positional pairs. -/
theorem flattenTree_pairs :
    ∀ (ns : List TreeNode) (pid : Option String) (idx : Nat),
      ((flattenTree ns pid idx).map fun q => (q.id, q.parentId)) = nodePairs ns pid
  | [], _, _ => by rw [flattenTree, nodePairs]; rfl
  | n :: rest, pid, idx => by
    rw [flattenTree, nodePairs, List.map_cons, List.map_append,
      flattenTree_pairs n.children (some n.page.id) 0,
      flattenTree_pairs rest pid (idx + 1)]
termination_by ns _ _ => sizeOf ns
decreasing_by
  all_goals (cases n; simp [TreeNode.children]; try omega)

/-- Concrete three-page site for the round-trip results: a root `"r"` and two
children `"b"` (menuOrder 5) and `"c"` (menuOrder 2), listed b-before-c. -/
def rtPages : List SitePage :=
  [mkPage "r",
   { mkPage "b" with parentId := some "r", menuOrder := 5 },
   { mkPage "c" with parentId := some "r", menuOrder := 2 }]

/-- A rank witnessing acyclicity of `rtPages`: the root below its children. -/
def rtRank (s : String) : Nat :=
  if s = "r" then 0 else 1

/-- `rtPages` has no dangling parent reference. -/
theorem rtPages_noDangling :
    ∀ p ∈ rtPages, ∀ pid, p.parentId = some pid → ∃ q ∈ rtPages, q.id = pid := by
  intro p hp pid hpid
  simp only [rtPages, List.mem_cons, List.not_mem_nil, or_false] at hp
  rcases hp with rfl | rfl | rfl
  · simp [mkPage] at hpid
  · simp only [mkPage] at hpid
    injection hpid with hpid
    exact ⟨mkPage "r", by simp [rtPages], by rw [← hpid]; rfl⟩
  · simp only [mkPage] at hpid
    injection hpid with hpid
    exact ⟨mkPage "r", by simp [rtPages], by rw [← hpid]; rfl⟩

/-- C2 (amended): for a page list with pairwise-distinct ids, no parent
string `"0"` and no empty parent string (the source treats both as absent —
`"0"` by explicit normalization, `""` by JS falsiness, line 29), no dangling
parent references, and an acyclic parent relation
(witnessed by a rank function bounded by the page count),
`flattenTree(buildTreeFromPages(pages), null)` returns pages carrying exactly
the input's multiset of `(id, parentId)` pairs: the same ids and the same
parent relation, with `menuOrder` renumbered to sibling indices.  The input's
relative sibling order is, however, not preserved in general: each child list
is re-sorted by `menuOrder` and the root level by descendant count. -/
theorem buildTree_flatten_roundtrip (pages : List SitePage) (rank : String → Nat)
    (hnodup : (pages.map fun p => p.id).Nodup)
    (hzero : ∀ p ∈ pages, p.parentId ≠ some "0")
    (hempty : ∀ p ∈ pages, p.parentId ≠ some "")
    (hdang : ∀ p ∈ pages, ∀ pid, p.parentId = some pid → ∃ q ∈ pages, q.id = pid)
    (hrank : ∀ p ∈ pages, ∀ pid, p.parentId = some pid → rank pid < rank p.id)
    (hbound : ∀ p ∈ pages, rank p.id < pages.length) :
    ((flattenTree (buildTreeFromPages pages) none 0).map fun q =>
      (q.id, q.parentId)).Perm (pages.map fun p => (p.id, p.parentId)) := by
  have h :=
    (TreeCtx.mk pages rank hnodup hzero hempty hdang hrank hbound).buildTree_pairs
  rwa [← flattenTree_pairs (buildTreeFromPages pages) none 0] at h

/-- Witness: the amended round-trip theorem applied to the concrete
three-page site, with the concrete rank discharging every hypothesis. -/
theorem buildTree_flatten_roundtrip_witness :
    ((flattenTree (buildTreeFromPages rtPages) none 0).map fun q =>
      (q.id, q.parentId)).Perm (rtPages.map fun p => (p.id, p.parentId)) :=
  buildTree_flatten_roundtrip rtPages rtRank (by decide) (by decide) (by decide)
    rtPages_noDangling
    (by
      intro p hp pid hpid
      simp only [rtPages, List.mem_cons, List.not_mem_nil, or_false] at hp
      rcases hp with rfl | rfl | rfl
      · simp [mkPage] at hpid
      · simp only [mkPage] at hpid
        injection hpid with hpid
        rw [← hpid]
        decide
      · simp only [mkPage] at hpid
        injection hpid with hpid
        rw [← hpid]
        decide)
    (by decide)

/-- C2 counterexample: the same concrete site satisfies the claim's stated
hypotheses (no dangling parent, no `"0"` parent), lists sibling `"b"` before
`"c"`, yet the round trip returns `"c"` before `"b"`: child lists are
re-sorted by `menuOrder`, so the input's relative sibling order is not
preserved. -/
theorem buildTree_flatten_order_flip :
    (∀ p ∈ rtPages, p.parentId ≠ some "0") ∧
    (∀ p ∈ rtPages, ∀ pid, p.parentId = some pid → ∃ q ∈ rtPages, q.id = pid) ∧
    (rtPages.map fun p => p.id) = ["r", "b", "c"] ∧
    ((flattenTree (buildTreeFromPages rtPages) none 0).map fun q => q.id) =
      ["r", "c", "b"] := by
  refine ⟨by decide, rtPages_noDangling, by decide, ?_⟩
  simp +decide [flattenTree, buildTreeFromPages, sortRootsByDescendantCount,
    sortByMenuOrder, buildChildren, childPages, rootPages, safeParentId,
    getDescendantCount, getDescendantCountList, rtPages, mkPage,
    List.insertionSort, List.orderedInsert]

end WPSA
